import Mathlib

/-!
# Verification of the framely crawl frontier, scheduler and report merger

A shallow embedding, in Lean 4, of the Go sources of the framely web
screenshot crawler:

* `src/models/models.go`   — the `CrawlSession` frontier (queue, visited /
  existing sets, depth map, result list);
* `src/utils/url.go`       — URL normalization, validation, skip patterns;
* `src/services/app.go`    — the sequential and parallel crawl schedulers;
* `src/services/report.go` — the report merge (`GenerateReport`).

Modelling conventions:

* Go `map[string]bool` sets become `List String` with membership given by
  `List.contains`; inserting a key becomes list cons (duplicates in the
  carrier list are harmless: only membership is ever observed).
* The Go `map[string]int` depth map becomes an association list updated by
  cons at the front, read by `List.lookup` (first match), which reproduces
  the overwrite-on-update, zero-on-missing semantics of the Go map.
* Go `int` / `int64` become `Nat` (crawl depths, which the program only ever
  computes as `0`, `1`, `depth+1`) and `Int` (byte sizes, durations);
  Go's `/` on `int64` is truncated division, i.e. `Int.tdiv`.
* Wall-clock values (`time.Time`, delays) are not modelled: `Timestamp`
  fields are dropped and the `LastUpdate *time.Time` pointer of the report
  is modelled by the `Bool` saying whether it was set.
* The parts of Go's `net/url` package exercised by `NormalizeURL` and
  `IsValidURL` (`url.Parse`, `URL.String`) are modelled in namespace
  `GoNetURL` for a restricted but faithful fragment of URL strings,
  documented there.
-/

namespace Framely

/-! ## Generic character-list helpers (mirroring Go `strings` functions) -/

/-- Model of Go `strings.Contains hay needle`: `needle` occurs as a
contiguous substring of `hay` (arguments here: needle first). -/
def containsSeq (needle : List Char) : List Char → Bool
  | [] => needle.isEmpty
  | c :: rest => needle.isPrefixOf (c :: rest) || containsSeq needle rest

/-- Model of Go `net/url`'s `split(s, sep, true)` restricted to the uses in
`url.Parse`: cut at the first occurrence of `sep`, the separator kept in
neither half; `none` when `sep` does not occur. -/
def cutFirst (sep : Char) : List Char → Option (List Char × List Char)
  | [] => none
  | c :: rest =>
    if c = sep then some ([], rest)
    else (cutFirst sep rest).map (fun p => (c :: p.1, p.2))

/-- Model of Go `net/url`'s `split(s, sep, false)`: the part strictly before
the first occurrence of `sep` and the part from that occurrence on (the
whole string and `[]` when `sep` does not occur). -/
def spanUntil (sep : Char) : List Char → List Char × List Char
  | [] => ([], [])
  | c :: rest =>
    if c = sep then ([], c :: rest)
    else
      let p := spanUntil sep rest
      (c :: p.1, p.2)

/-- Model of Go `strings.TrimSuffix(p, "/")`: remove one trailing slash if
present (only one — `TrimSuffix` strips the suffix at most once). -/
def trimSuffixSlash (p : List Char) : List Char :=
  if p.getLast? = some '/' then p.dropLast else p

/-! ## Data model (`src/models/models.go`) -/

/-- `models.ScreenshotResult`: the outcome of one capture attempt.  The
`Timestamp time.Time` field is omitted (wall-clock time is not modelled);
all other fields are kept. -/
structure ScreenshotResult where
  url : String
  filename : String
  success : Bool
  error : String
  fileSize : Int
  duration : Int
deriving Repr, DecidableEq

/-- `models.Report`: the persisted report.  `Timestamp` is omitted
(wall-clock); the `LastUpdate *time.Time` pointer is modelled by the
boolean `lastUpdateSet` recording whether `GenerateReport` set it. -/
structure Report where
  baseURL : String
  totalPages : Nat
  successfulScreenshots : Nat
  failedScreenshots : Nat
  lastUpdateSet : Bool
  newPagesInThisRun : Nat
  totalDuration : Int
  averagePageSize : Int
  results : List ScreenshotResult
deriving Repr, DecidableEq

/-- `models.CrawlSession`: the crawl frontier.  `startTime` is omitted
(wall-clock).  The three `map[string]bool` sets are lists observed only
through membership; `depthMap` is an association list read by first
match, so consing an entry at the front models the Go map overwrite. -/
structure CrawlSession where
  baseURL : String
  visitedURLs : List String
  discoveredURLs : List String
  existingURLs : List String
  urlQueue : List String
  depthMap : List (String × Nat)
  results : List ScreenshotResult
deriving Repr, DecidableEq

/-- `models.NewCrawlSession`: fresh session, everything empty. -/
def NewCrawlSession (baseURL : String) : CrawlSession :=
  { baseURL := baseURL
    visitedURLs := []
    discoveredURLs := []
    existingURLs := []
    urlQueue := []
    depthMap := []
    results := [] }

/-- `CrawlSession.AddURL` (models.go lines 70-75): append `url` to the queue
and store its depth, unless the *raw* `url` string is already in
`visitedURLs` or `existingURLs`.  Note: the Go source performs both map
lookups on the raw `url` argument — no normalization happens here. -/
def CrawlSession.AddURL (cs : CrawlSession) (url : String) (depth : Nat) : CrawlSession :=
  if !(cs.visitedURLs.contains url) && !(cs.existingURLs.contains url) then
    { cs with
      urlQueue := cs.urlQueue ++ [url]
      depthMap := (url, depth) :: cs.depthMap }
  else cs

/-- `CrawlSession.MarkVisited`: add `url` to the visited set. -/
def CrawlSession.MarkVisited (cs : CrawlSession) (url : String) : CrawlSession :=
  { cs with visitedURLs := url :: cs.visitedURLs }

/-- `CrawlSession.MarkExisting`: add `url` to the pre-existing set. -/
def CrawlSession.MarkExisting (cs : CrawlSession) (url : String) : CrawlSession :=
  { cs with existingURLs := url :: cs.existingURLs }

/-- `CrawlSession.AddResult`: append a screenshot result. -/
def CrawlSession.AddResult (cs : CrawlSession) (result : ScreenshotResult) : CrawlSession :=
  { cs with results := cs.results ++ [result] }

/-- `CrawlSession.GetNextURL` (models.go lines 93-103): FIFO pop of the
queue; the returned depth is the depth-map entry for the popped string
(`0` when absent, the Go map zero value).  The Go triple
`(url, depth, ok)` is modelled as `Option ((url, depth), poppedSession)`. -/
def CrawlSession.GetNextURL (cs : CrawlSession) : Option ((String × Nat) × CrawlSession) :=
  match cs.urlQueue with
  | [] => none
  | url :: rest =>
    some ((url, (cs.depthMap.lookup url).getD 0), { cs with urlQueue := rest })

/-- `CrawlSession.IsVisited`. -/
def CrawlSession.IsVisited (cs : CrawlSession) (url : String) : Bool :=
  cs.visitedURLs.contains url

/-- `CrawlSession.IsExisting`. -/
def CrawlSession.IsExisting (cs : CrawlSession) (url : String) : Bool :=
  cs.existingURLs.contains url

/-- `CrawlSession.GetResults`. -/
def CrawlSession.GetResults (cs : CrawlSession) : List ScreenshotResult :=
  cs.results

/-- `CrawlSession.GetStats`: `(total, success, failed)` scanned from the
result list. -/
def CrawlSession.GetStats (cs : CrawlSession) : Nat × Nat × Nat :=
  (cs.results.length,
   (cs.results.filter (fun r => r.success)).length,
   (cs.results.filter (fun r => !r.success)).length)

/-! ## Report merge (`src/services/report.go`, `GenerateReport`) -/

/-- Accumulator of the statistics loop in `GenerateReport`
(report.go lines 57-71). -/
structure ReportTotals where
  successCount : Nat
  failCount : Nat
  totalDuration : Int
  totalFileSize : Int
deriving Repr, DecidableEq

/-- One iteration of the statistics loop of `GenerateReport`: a successful
result bumps the success count and adds its size; a failed one bumps the
fail count; every result adds its duration. -/
def reportStep (t : ReportTotals) (r : ScreenshotResult) : ReportTotals :=
  { successCount := t.successCount + (if r.success then 1 else 0)
    failCount := t.failCount + (if r.success then 0 else 1)
    totalDuration := t.totalDuration + r.duration
    totalFileSize := t.totalFileSize + (if r.success then r.fileSize else 0) }

/-- The statistics loop of `GenerateReport` over the merged result list. -/
def reportTotals (allResults : List ScreenshotResult) : ReportTotals :=
  allResults.foldl reportStep ⟨0, 0, 0, 0⟩

/-- `ReportService.GenerateReport` (report.go lines 47-106), the pure
computation of the merged report (file writes and `time.Now()` dropped):
merged results are the previous report's results — `[]` when no previous
report exists — followed by this session's results; the average page size
is the truncated (Go `int64`) quotient of the total successful byte size
by the success count, `0` when there is no success; `NewPagesInThisRun`
is the session result count; `LastUpdate` is set iff the session produced
at least one result. -/
def GenerateReport (baseURL : String) (session : CrawlSession)
    (existingReport : Option Report) : Report :=
  let sessionResults := session.GetResults
  let allResults :=
    (match existingReport with
     | some r => r.results
     | none => []) ++ sessionResults
  let t := reportTotals allResults
  let averagePageSize : Int :=
    if t.successCount > 0 then Int.tdiv t.totalFileSize (Int.ofNat t.successCount) else 0
  { baseURL := baseURL
    totalPages := allResults.length
    successfulScreenshots := t.successCount
    failedScreenshots := t.failCount
    lastUpdateSet := decide (sessionResults.length > 0)
    newPagesInThisRun := sessionResults.length
    totalDuration := t.totalDuration
    averagePageSize := averagePageSize
    results := allResults }

/-! ## Model of the `net/url` fragment used by `src/utils/url.go`

`NormalizeURL` and `IsValidURL` call Go's `url.Parse` and `URL.String`.
Those are modelled here for a restricted fragment of URL strings; within
the fragment the model follows the Go source of `net/url` (scheme
scanning, fragment/query splitting, authority/opaque/omit-host branches,
and the `URL.String` assembly) branch by branch.  The restrictions, each
turning into a parse failure (`none`) instead of a Go success, are:

* no percent-escapes anywhere (so un/re-escaping is the identity),
* no userinfo (`@`), no IPv6 brackets, no port: host characters are
  letters, digits, `.` and `-`,
* path characters are letters, digits and `/ - . _ ~ : @ + , ; = & $ ! * ( )`
  (a subset of what Go leaves unescaped in paths).

Go parse *errors* that are modelled faithfully: control characters in the
URL, a `:` before any scheme (`"missing protocol scheme"`), and a `:`
inside the first path segment of a scheme-less relative URL. -/

namespace GoNetURL

/-- A control byte in the sense of `net/url`'s `stringContainsCTLByte`. -/
def isCTL (c : Char) : Bool := decide (c.toNat < 0x20) || decide (c.toNat = 0x7f)

/-- ASCII letter, as in `net/url`'s `isAlpha` (stated on code points). -/
def isAlphaCh (c : Char) : Bool :=
  (decide (65 ≤ c.toNat) && decide (c.toNat ≤ 90)) ||
  (decide (97 ≤ c.toNat) && decide (c.toNat ≤ 122))

/-- ASCII digit, as in `net/url`'s `isDigit`. -/
def isDigitCh (c : Char) : Bool := decide (48 ≤ c.toNat) && decide (c.toNat ≤ 57)

/-- ASCII lowercasing of a single character (what `strings.ToLower` does on
the ASCII scheme characters `getScheme` can return). -/
def toLowerCh (c : Char) : Char :=
  if 65 ≤ c.toNat ∧ c.toNat ≤ 90 then Char.ofNat (c.toNat + 32) else c

/-- Characters allowed after the first character of a scheme
(`getScheme` in `net/url`). -/
def schemeChar (c : Char) : Bool :=
  isAlphaCh c || isDigitCh c || c == '+' || c == '-' || c == '.'

/-- Host characters admitted by the model (registered-name letters, digits,
dots and hyphens; no userinfo, brackets or port). -/
def hostChar (c : Char) : Bool := isAlphaCh c || isDigitCh c || c == '.' || c == '-'

/-- Path characters admitted by the model: characters Go's path escaper
leaves unchanged (minus the apostrophe), so `EscapedPath` is the
identity on the fragment. -/
def pathChar (c : Char) : Bool :=
  isAlphaCh c || isDigitCh c || "/-._~:@+,;=&$!*()".data.contains c

/-- Opaque-part characters: anything but a control byte, `%`, `#` or `?`
(the latter two cannot occur, having been split off before). -/
def opaqueChar (c : Char) : Bool :=
  !(isCTL c) && c != '%' && c != '#' && c != '?'

/-- Scheme scan of `getScheme`: walk scheme characters until a `:`
(scheme found) or any other character / the end (no scheme). -/
def findSchemeSplit : List Char → Option (List Char × List Char)
  | [] => none
  | c :: rest =>
    if c = ':' then some ([], rest)
    else if schemeChar c then
      (findSchemeSplit rest).map (fun p => (c :: p.1, p.2))
    else none

/-- `getScheme` of `net/url`: `none` models the `"missing protocol scheme"`
error (leading `:`); otherwise the (lowercased, as in `url.parse`)
scheme — possibly empty — and the rest.  A digit or symbol in first
position, or any non-scheme character before a `:`, means "no scheme"
and returns the whole input as the rest. -/
def getScheme (s : List Char) : Option (List Char × List Char) :=
  match s with
  | [] => some ([], [])
  | c :: _ =>
    if c = ':' then none
    else if !(isAlphaCh c) then some ([], s)
    else
      match findSchemeSplit s with
      | some p => some (p.1.map toLowerCh, p.2)
      | none => some ([], s)

/-- The Go `url.URL` struct, restricted to the fields the repository's
code can observe (`User`, `RawPath`, `RawFragment` dropped with the
fragment restrictions above). -/
structure URL where
  scheme : List Char
  opq : List Char
  host : List Char
  path : List Char
  rawQuery : List Char
  forceQuery : Bool
  omitHost : Bool
  fragment : List Char
deriving Repr, DecidableEq

/-- First path segment, as in `strings.Cut(path, "/")`. -/
def firstSegment (p : List Char) : List Char := (spanUntil '/' p).1

/-- The fragment split of `url.Parse`: the part before the first `#` and
the part after it (empty when there is no `#`). -/
def splitFragment (raw : List Char) : List Char × List Char :=
  match cutFirst '#' raw with
  | none => (raw, [])
  | some p => p

/-- The query split of `url.parse`: `(rest, rawQuery, forceQuery)`.  A `?`
as the last character and the only `?` sets `ForceQuery` with an empty
query; otherwise the string is cut at the first `?`. -/
def splitQuery (rest0 : List Char) : List Char × List Char × Bool :=
  match cutFirst '?' rest0 with
  | none => (rest0, [], false)
  | some (a, b) => if b = [] then (a, [], true) else (a, b, false)

/-- The branch cascade of `url.parse` after the scheme and query have been
split off: the opaque, colon-in-first-segment, authority, omit-host and
relative-path branches, in source order, with the model's per-component
character validation. -/
def parseAfterScheme (scheme rest rawQuery : List Char) (forceQuery : Bool)
    (frag : List Char) : Option URL :=
  if scheme ≠ [] ∧ rest.head? ≠ some '/' then
    if rest.all opaqueChar then
      some { scheme := scheme, opq := rest, host := [], path := []
             rawQuery := rawQuery, forceQuery := forceQuery
             omitHost := false, fragment := frag }
    else none
  else if scheme = [] ∧ rest.head? ≠ some '/' ∧ (firstSegment rest).contains ':' then
    none
  else if (scheme ≠ [] ∨ ¬ ['/', '/', '/'].isPrefixOf rest) ∧ ['/', '/'].isPrefixOf rest then
    if (spanUntil '/' (rest.drop 2)).1.all hostChar &&
        (spanUntil '/' (rest.drop 2)).2.all pathChar then
      some { scheme := scheme, opq := [], host := (spanUntil '/' (rest.drop 2)).1
             path := (spanUntil '/' (rest.drop 2)).2
             rawQuery := rawQuery, forceQuery := forceQuery
             omitHost := false, fragment := frag }
    else none
  else if scheme ≠ [] ∧ rest.head? = some '/' then
    if rest.all pathChar then
      some { scheme := scheme, opq := [], host := [], path := rest
             rawQuery := rawQuery, forceQuery := forceQuery
             omitHost := true, fragment := frag }
    else none
  else
    if rest.all pathChar then
      some { scheme := scheme, opq := [], host := [], path := rest
             rawQuery := rawQuery, forceQuery := forceQuery
             omitHost := false, fragment := frag }
    else none

/-- Model of `url.Parse` on the fragment described above.  Follows
`net/url`'s `Parse`/`parse`: reject control bytes (and, as a model
restriction, `%`); split the fragment at the first `#`; scan the scheme;
split the query at the first `?` (a single trailing `?` sets
`ForceQuery`); then the branch cascade of `parseAfterScheme`. -/
def parse (rawURL : List Char) : Option URL :=
  if rawURL.any (fun c => isCTL c || c == '%') then none
  else
    match getScheme (splitFragment rawURL).1 with
    | none => none
    | some (scheme, rest0) =>
      parseAfterScheme scheme (splitQuery rest0).1 (splitQuery rest0).2.1
        (splitQuery rest0).2.2 (splitFragment rawURL).2

/-- Model of `url.URL.String` on the same fragment (no userinfo; escaping
is the identity on the fragment): `scheme:`; then the opaque part, or
`//host` when the URL has a scheme or host (omitted for an omit-host URL
with empty host), a `/` pad before a rootless path with a host, a `./`
guard before a colon-bearing first segment when the buffer is still
empty, and the path; then `?query` if forced or non-empty and
`#fragment` if non-empty. -/
def urlString (u : URL) : List Char :=
  let schemePart := if u.scheme ≠ [] then u.scheme ++ [':'] else []
  let core :=
    if u.opq ≠ [] then u.opq
    else
      let authPart :=
        if u.scheme ≠ [] ∨ u.host ≠ [] then
          if u.omitHost ∧ u.host = [] then []
          else (if u.host ≠ [] ∨ u.path ≠ [] then ['/', '/'] else []) ++ u.host
        else []
      let slashPad :=
        if u.path ≠ [] ∧ u.path.head? ≠ some '/' ∧ u.host ≠ [] then ['/'] else []
      let dotSlash :=
        if schemePart = [] ∧ authPart = [] ∧ slashPad = [] ∧
            (firstSegment u.path).contains ':' then
          ['.', '/']
        else []
      authPart ++ slashPad ++ dotSlash ++ u.path
  let queryPart := if u.forceQuery ∨ u.rawQuery ≠ [] then '?' :: u.rawQuery else []
  let fragPart := if u.fragment ≠ [] then '#' :: u.fragment else []
  schemePart ++ core ++ queryPart ++ fragPart

end GoNetURL

/-! ## URL utilities (`src/utils/url.go`) -/

/-- The path-normalization steps of `NormalizeURL` (url.go lines 56-63):
empty path becomes `/`; one trailing slash is trimmed; an emptied path
becomes `/` again. -/
def normPath (p : List Char) : List Char :=
  if trimSuffixSlash (if p = [] then ['/'] else p) = [] then ['/']
  else trimSuffixSlash (if p = [] then ['/'] else p)

/-- The field updates `NormalizeURL` applies to a parsed URL: clear the
fragment and the query, normalize the path (`ForceQuery`, inherited from
the Go struct, is untouched — the Go code only assigns `RawQuery`). -/
def normStruct (u : GoNetURL.URL) : GoNetURL.URL :=
  { u with fragment := [], rawQuery := [], path := normPath u.path }

/-- `utils.NormalizeURL` (url.go lines 47-66): parse; on a parse error
return the input unchanged; otherwise clear fragment and query,
normalize the path, and re-serialize. -/
def NormalizeURL (urlStr : String) : String :=
  match GoNetURL.parse urlStr.data with
  | none => urlStr
  | some u => String.mk (GoNetURL.urlString (normStruct u))

/-- `config.EXCLUDED_EXTENSIONS`. -/
def EXCLUDED_EXTENSIONS : List String :=
  [".pdf", ".doc", ".docx", ".xls", ".xlsx",
   ".zip", ".rar", ".exe", ".dmg", ".pkg",
   ".mp4", ".avi", ".mov", ".mp3", ".wav",
   ".jpg", ".jpeg", ".png", ".gif", ".svg"]

/-- `utils.IsValidURL` (url.go lines 13-44): reject the empty string and
parse failures of either argument; require host and scheme to equal the
base's; reject excluded extensions (case-insensitive path suffix) and
raw strings containing `mailto:`, `tel:` or `javascript:`. -/
def IsValidURL (urlStr baseURL : String) : Bool :=
  if urlStr = "" then false
  else
    match GoNetURL.parse urlStr.data, GoNetURL.parse baseURL.data with
    | some u, some baseU =>
      if u.host ≠ baseU.host ∨ u.scheme ≠ baseU.scheme then false
      else
        let pathname := u.path.map Char.toLower
        if EXCLUDED_EXTENSIONS.any (fun ext => ext.data.isSuffixOf pathname) then false
        else if containsSeq "mailto:".data urlStr.data ||
            containsSeq "tel:".data urlStr.data ||
            containsSeq "javascript:".data urlStr.data then false
        else true
    | _, _ => false

/-- `utils.ShouldSkipURL` (url.go lines 89-96): some configured pattern is
a case-insensitive substring of the raw URL string. -/
def ShouldSkipURL (urlStr : String) (skipPatterns : List String) : Bool :=
  skipPatterns.any (fun pattern =>
    containsSeq (pattern.data.map Char.toLower) (urlStr.data.map Char.toLower))

/-! ## Schedulers (`src/services/app.go`)

The `AppService` carries a `config.Config` and a `BrowserService`.  Of the
configuration, the schedulers read `BaseURL`, `MaxDepth`, `ParallelWorkers`
and `SkipPatterns` (`RequestDelay` only feeds `time.Sleep`, not modelled).
The external collaborators are modelled as unconstrained functions:
`CaptureScreenshot` as a function from URL to result, `ExtractLinks` as a
function from URL to `Option (List String)` (`none` is the Go error case),
and — because Go's RFC 3986 `ResolveReference` inside
`utils.FixRelativeURL` is out of the modelled fragment — `FixRelativeURL`
itself as an arbitrary function parameter; every scheduler theorem below
therefore holds for all behaviours of these collaborators. -/

/-- The configuration fields read by the crawl schedulers. -/
structure Config where
  baseURL : String
  maxDepth : Nat
  parallelWorkers : Nat
  skipPatterns : List String
deriving Repr, DecidableEq

/-- The `BrowserService` collaborator as seen by the schedulers:
`CaptureScreenshot` and `ExtractLinks` (the latter returns `none` on a
link-extraction error). -/
structure BrowserService where
  capture : String → ScreenshotResult
  extractLinks : String → Option (List String)

/-- The body of the `addNewLinksToQueue` loop (app.go lines 213-223) for a
single link: resolve it against the base URL, and if valid, not visited
or existing *under its normalized form*, and not skip-matched, `AddURL`
the resolved (raw, unnormalized) link at the given depth. -/
def addLinkStep (cfg : Config) (fixRelative : String → String → String)
    (depth : Nat) (s : CrawlSession) (link : String) : CrawlSession :=
  let fixedLink := fixRelative link cfg.baseURL
  if IsValidURL fixedLink cfg.baseURL then
    let normalizedLink := NormalizeURL fixedLink
    if !(s.IsVisited normalizedLink) && !(s.IsExisting normalizedLink) then
      if !(ShouldSkipURL fixedLink cfg.skipPatterns) then
        s.AddURL fixedLink depth
      else s
    else s
  else s

/-- `AppService.addNewLinksToQueue` (app.go lines 212-224): run
`addLinkStep` over all extracted links. -/
def addNewLinksToQueue (cfg : Config) (fixRelative : String → String → String)
    (sess : CrawlSession) (links : List String) (depth : Nat) : CrawlSession :=
  links.foldl (addLinkStep cfg fixRelative depth) sess

/-- State of the sequential crawl loop: the session plus the (ghost) log of
`CaptureScreenshot` invocations, each recorded with the depth at which it
was dispatched. -/
structure SeqState where
  session : CrawlSession
  dispatched : List (String × Nat)
deriving Repr, DecidableEq

/-- The capture-and-feedback stage shared by both schedulers (app.go lines
131-142 and 193-201): record the capture result and, when the capture
succeeded and the dispatch depth is strictly below `MaxDepth`, feed the
extracted links back into the frontier at `depth + 1` (an extraction
error means no new links). -/
def dispatchFeedback (cfg : Config) (browser : BrowserService)
    (fixRelative : String → String → String) (url : String) (depth : Nat)
    (s : CrawlSession) : CrawlSession :=
  if (browser.capture url).success = true ∧ depth < cfg.maxDepth then
    match browser.extractLinks url with
    | some links =>
      addNewLinksToQueue cfg fixRelative (s.AddResult (browser.capture url)) links (depth + 1)
    | none => s.AddResult (browser.capture url)
  else s.AddResult (browser.capture url)

/-- One iteration of the `runSequentialCrawl` loop (app.go lines 101-145):
pop the queue (`none` when it is empty — the loop breaks); discard
entries beyond `MaxDepth`; discard already-visited normalized forms;
mark-and-discard existing and skip-matched URLs; otherwise mark visited,
capture (logging the dispatch), record the result, and on a successful
capture below `MaxDepth` feed the extracted links back at `depth+1`. -/
def seqStep (cfg : Config) (browser : BrowserService)
    (fixRelative : String → String → String) (st : SeqState) : Option SeqState :=
  match st.session.GetNextURL with
  | none => none
  | some ((url, depth), sess) =>
    if depth > cfg.maxDepth then some { st with session := sess }
    else if sess.IsVisited (NormalizeURL url) then some { st with session := sess }
    else if sess.IsExisting (NormalizeURL url) then
      some { st with session := sess.MarkVisited (NormalizeURL url) }
    else if ShouldSkipURL url cfg.skipPatterns then
      some { st with session := sess.MarkVisited (NormalizeURL url) }
    else
      some { session :=
               dispatchFeedback cfg browser fixRelative url depth
                 (sess.MarkVisited (NormalizeURL url))
             dispatched := st.dispatched ++ [(url, depth)] }

/-- `AppService.runSequentialCrawl` (app.go lines 98-148) with explicit
fuel: iterate `seqStep` until the queue is empty or the fuel runs out
(the Go loop has no fuel; every safety theorem below holds for every
fuel value, hence for the whole run whenever it terminates). -/
def runSequentialCrawl (cfg : Config) (browser : BrowserService)
    (fixRelative : String → String → String) : Nat → SeqState → SeqState
  | 0, st => st
  | fuel + 1, st =>
    match seqStep cfg browser fixRelative st with
    | none => st
    | some st1 => runSequentialCrawl cfg browser fixRelative fuel st1

/-- State of the parallel crawl (app.go lines 151-209): the session, the
multiset of in-flight capture tasks, whether the dispatch loop has
exited (`hasNext == false`), and the (ghost) dispatch log. -/
structure ParState where
  session : CrawlSession
  inflight : List (String × Nat)
  loopDone : Bool
  dispatched : List (String × Nat)
deriving Repr, DecidableEq

/-- A scheduling decision in the interleaving semantics of
`runParallelCrawl`: either the dispatch loop performs one iteration, or
the `i`-th in-flight worker goroutine runs to completion. -/
inductive ParChoice where
  | dispatchNext : ParChoice
  | complete : Nat → ParChoice
deriving Repr, DecidableEq

/-- One atomic step of the parallel crawl under a scheduling choice.

`dispatchNext` is one iteration of the dispatch loop (app.go lines
164-203): pop the queue — if empty the loop exits (`loopDone`, after
which the code only does `wg.Wait()`); discard beyond-`MaxDepth`,
visited-or-existing, and skip-matched entries (the skip branch does
*not* mark visited, unlike the sequential loop); otherwise mark visited
on the dispatching thread and launch the capture task.

`complete i` runs the `i`-th in-flight goroutine to completion (no-op if
out of range — the choice is invalid): its result is appended via the
results channel, and on success below `MaxDepth` its extracted links are
fed back through `addNewLinksToQueue`.  Workers keep completing — and
keep enqueuing — regardless of `loopDone`. -/
def parStep (cfg : Config) (browser : BrowserService)
    (fixRelative : String → String → String) (st : ParState) : ParChoice → ParState
  | .dispatchNext =>
    if st.loopDone then st
    else
      match st.session.GetNextURL with
      | none => { st with loopDone := true }
      | some ((url, depth), sess) =>
        if depth > cfg.maxDepth then { st with session := sess }
        else if sess.IsVisited (NormalizeURL url) || sess.IsExisting (NormalizeURL url) then
          { st with session := sess }
        else if ShouldSkipURL url cfg.skipPatterns then
          { st with session := sess }
        else
          { st with
            session := sess.MarkVisited (NormalizeURL url)
            inflight := st.inflight ++ [(url, depth)]
            dispatched := st.dispatched ++ [(url, depth)] }
  | .complete i =>
    match st.inflight[i]? with
    | none => st
    | some (pageURL, pageDepth) =>
      { st with
        session := dispatchFeedback cfg browser fixRelative pageURL pageDepth st.session
        inflight := st.inflight.eraseIdx i }

/-- `AppService.runParallelCrawl` under an explicit interleaving: fold the
scheduling choices over `parStep`.  The run of the Go function ends
(dispatch loop exited, `wg.Wait()` returned, results channel closed)
exactly in a state where `loopDone` holds and `inflight` is empty. -/
def runParallelCrawl (cfg : Config) (browser : BrowserService)
    (fixRelative : String → String → String) (choices : List ParChoice)
    (st : ParState) : ParState :=
  choices.foldl (parStep cfg browser fixRelative) st

/-- The terminal state of `runParallelCrawl`: the dispatch loop has exited
and no capture task is in flight (`wg.Wait()` has returned). -/
def ParState.Terminated (st : ParState) : Prop :=
  st.loopDone = true ∧ st.inflight = []

/-- The initial scheduler state built by `AppService.CrawlWebsite`
(app.go line 88): the base URL enqueued at depth 0 on top of whatever
the session already holds, with an empty dispatch log. -/
def initParState (cfg : Config) (sess : CrawlSession) : ParState :=
  { session := sess.AddURL cfg.baseURL 0
    inflight := []
    loopDone := false
    dispatched := [] }

/-! ## Basic preservation lemmas -/

theorem AddURL_visitedURLs (cs : CrawlSession) (url : String) (depth : Nat) :
    (cs.AddURL url depth).visitedURLs = cs.visitedURLs := by
  unfold CrawlSession.AddURL
  split <;> rfl

theorem AddURL_existingURLs (cs : CrawlSession) (url : String) (depth : Nat) :
    (cs.AddURL url depth).existingURLs = cs.existingURLs := by
  unfold CrawlSession.AddURL
  split <;> rfl

theorem AddURL_fresh (cs : CrawlSession) (url : String) (depth : Nat)
    (h1 : cs.visitedURLs.contains url = false)
    (h2 : cs.existingURLs.contains url = false) :
    cs.AddURL url depth =
      { cs with urlQueue := cs.urlQueue ++ [url]
                depthMap := (url, depth) :: cs.depthMap } := by
  have hm1 : url ∉ cs.visitedURLs := by simpa using h1
  have hm2 : url ∉ cs.existingURLs := by simpa using h2
  have hc : (!(cs.visitedURLs.contains url) && !(cs.existingURLs.contains url)) = true := by
    simp [hm1, hm2]
  unfold CrawlSession.AddURL
  rw [hc]
  simp

theorem AddURL_stale (cs : CrawlSession) (url : String) (depth : Nat)
    (h : cs.visitedURLs.contains url = true ∨ cs.existingURLs.contains url = true) :
    cs.AddURL url depth = cs := by
  have hc : (!(cs.visitedURLs.contains url) && !(cs.existingURLs.contains url)) = false := by
    rcases h with h | h
    · have hm : url ∈ cs.visitedURLs := by simpa using h
      simp [hm]
    · have hm : url ∈ cs.existingURLs := by simpa using h
      simp [hm]
  unfold CrawlSession.AddURL
  rw [hc]
  simp

theorem addLinkStep_visitedURLs (cfg : Config) (fixRelative : String → String → String)
    (depth : Nat) (s : CrawlSession) (link : String) :
    (addLinkStep cfg fixRelative depth s link).visitedURLs = s.visitedURLs := by
  simp only [addLinkStep]
  split
  · split
    · split
      · exact AddURL_visitedURLs s _ depth
      · rfl
    · rfl
  · rfl

theorem addLinkStep_existingURLs (cfg : Config) (fixRelative : String → String → String)
    (depth : Nat) (s : CrawlSession) (link : String) :
    (addLinkStep cfg fixRelative depth s link).existingURLs = s.existingURLs := by
  simp only [addLinkStep]
  split
  · split
    · split
      · exact AddURL_existingURLs s _ depth
      · rfl
    · rfl
  · rfl

theorem addLinkStep_IsVisited (cfg : Config) (fixRelative : String → String → String)
    (depth : Nat) (s : CrawlSession) (link x : String) :
    (addLinkStep cfg fixRelative depth s link).IsVisited x = s.IsVisited x := by
  unfold CrawlSession.IsVisited
  rw [addLinkStep_visitedURLs]

theorem addLinkStep_IsExisting (cfg : Config) (fixRelative : String → String → String)
    (depth : Nat) (s : CrawlSession) (link x : String) :
    (addLinkStep cfg fixRelative depth s link).IsExisting x = s.IsExisting x := by
  unfold CrawlSession.IsExisting
  rw [addLinkStep_existingURLs]

theorem addNewLinksToQueue_visitedURLs (cfg : Config)
    (fixRelative : String → String → String) (links : List String) :
    ∀ sess depth,
      (addNewLinksToQueue cfg fixRelative sess links depth).visitedURLs = sess.visitedURLs := by
  induction links with
  | nil => intro sess depth; rfl
  | cons l ls ih =>
    intro sess depth
    unfold addNewLinksToQueue at ih ⊢
    rw [List.foldl_cons, ih, addLinkStep_visitedURLs]

theorem addNewLinksToQueue_existingURLs (cfg : Config)
    (fixRelative : String → String → String) (links : List String) :
    ∀ sess depth,
      (addNewLinksToQueue cfg fixRelative sess links depth).existingURLs = sess.existingURLs := by
  induction links with
  | nil => intro sess depth; rfl
  | cons l ls ih =>
    intro sess depth
    unfold addNewLinksToQueue at ih ⊢
    rw [List.foldl_cons, ih, addLinkStep_existingURLs]

theorem GetNextURL_fields (cs : CrawlSession) (p : (String × Nat) × CrawlSession)
    (h : cs.GetNextURL = some p) :
    p.2.visitedURLs = cs.visitedURLs ∧ p.2.existingURLs = cs.existingURLs ∧
      cs.urlQueue = p.1.1 :: p.2.urlQueue := by
  unfold CrawlSession.GetNextURL at h
  cases hq : cs.urlQueue with
  | nil => rw [hq] at h; exact absurd h (by simp)
  | cons u rest =>
    rw [hq] at h
    simp only [Option.some.injEq] at h
    subst h
    exact ⟨rfl, rfl, rfl⟩

/-! ## Claim C7 -/

/-- Claim C7: when no previous report exists, the merged report's result
list is exactly this run's result list; with a previous report it is the
previous results followed by this run's results (order preserved, nothing
removed or deduplicated); and `NewPagesInThisRun` is the length of this
run's result list in either case. -/
theorem generateReport_merge_spec (base : String) (sess : CrawlSession) :
    ((GenerateReport base sess none).results = sess.GetResults) ∧
    (∀ prev, (GenerateReport base sess (some prev)).results =
      prev.results ++ sess.GetResults) ∧
    (∀ existingReport,
      (GenerateReport base sess existingReport).newPagesInThisRun =
        sess.GetResults.length) := by
  refine ⟨by simp [GenerateReport], fun prev => by simp [GenerateReport],
    fun existingReport => by cases existingReport <;> simp [GenerateReport]⟩

/-! ## Claim C10 -/

/-- Claim C10: `NormalizeURL` is total and never errors: on any input whose
URL parse fails it returns the input string unchanged, so an unparseable
URL is its own canonical identity in every membership check. -/
theorem NormalizeURL_id_on_parse_failure (u : String)
    (h : GoNetURL.parse u.data = none) : NormalizeURL u = u := by
  unfold NormalizeURL
  rw [h]

theorem NormalizeURL_id_on_parse_failure_witness :
    GoNetURL.parse ":".data = none ∧ NormalizeURL ":" = ":" :=
  ⟨by decide, NormalizeURL_id_on_parse_failure ":" (by decide)⟩

/-! ## Claim C2 -/

/-- Claim C2 counterexample: `AddURL` does *not* normalize before its
membership check.  With the normalized form `http://a.com/page` already
visited, enqueueing the trivially-equivalent `http://a.com/page/` is not
a no-op: the raw string is appended to the queue. -/
theorem AddURL_skips_normalization_counterexample :
    NormalizeURL "http://a.com/page/" = "http://a.com/page" ∧
    (({ NewCrawlSession "http://a.com" with
        visitedURLs := ["http://a.com/page"] } : CrawlSession).AddURL
          "http://a.com/page/" 1).urlQueue = ["http://a.com/page/"] := by
  constructor
  · decide
  · decide

/-- Claim C2 as amended: `CrawlSession.AddURL` checks and stores the *raw*
URL string — it is a no-op exactly when the raw string is in `visited` or
`preexisting`, and otherwise appends the raw string; normalization is
performed by its caller `addNewLinksToQueue`, which only passes links
whose *normalized* form is absent from `visited` and `preexisting` (and
which are valid and not skip-matched), so the raw form is the identity
at `AddURL`'s own check while the normalized form is checked one level
up. -/
theorem AddURL_raw_identity_spec :
    (∀ (cs : CrawlSession) (url : String) (depth : Nat),
      (cs.visitedURLs.contains url = true ∨ cs.existingURLs.contains url = true) →
        cs.AddURL url depth = cs) ∧
    (∀ (cs : CrawlSession) (url : String) (depth : Nat),
      cs.visitedURLs.contains url = false → cs.existingURLs.contains url = false →
        (cs.AddURL url depth).urlQueue = cs.urlQueue ++ [url] ∧
        (cs.AddURL url depth).depthMap = (url, depth) :: cs.depthMap) ∧
    (∀ (cfg : Config) (fixRelative : String → String → String)
        (sess : CrawlSession) (links : List String) (depth : Nat) (e : String),
      e ∈ (addNewLinksToQueue cfg fixRelative sess links depth).urlQueue →
        e ∈ sess.urlQueue ∨
          (sess.IsVisited (NormalizeURL e) = false ∧
           sess.IsExisting (NormalizeURL e) = false ∧
           IsValidURL e cfg.baseURL = true ∧
           ShouldSkipURL e cfg.skipPatterns = false)) := by
  refine ⟨?_, ?_, ?_⟩
  · intro cs url depth h
    exact AddURL_stale cs url depth h
  · intro cs url depth h1 h2
    rw [AddURL_fresh cs url depth h1 h2]
    exact ⟨rfl, rfl⟩
  · intro cfg fixRelative sess links depth e
    induction links generalizing sess with
    | nil => intro h; exact Or.inl h
    | cons l ls ih =>
      intro h
      unfold addNewLinksToQueue at h
      rw [List.foldl_cons] at h
      rcases ih (addLinkStep cfg fixRelative depth sess l) h with h1 | h1
      · -- membership in the queue after one `addLinkStep`
        simp only [addLinkStep] at h1
        split at h1
        · split at h1
          · split at h1
            · rename_i hvalid hfresh hskip
              unfold CrawlSession.AddURL at h1
              split at h1
              · simp only [List.mem_append, List.mem_singleton] at h1
                rcases h1 with h1 | h1
                · exact Or.inl h1
                · subst h1
                  simp only [Bool.and_eq_true, Bool.not_eq_true'] at hfresh hskip
                  exact Or.inr ⟨hfresh.1, hfresh.2, hvalid, hskip⟩
              · exact Or.inl h1
            · exact Or.inl h1
          · exact Or.inl h1
        · exact Or.inl h1
      · rw [addLinkStep_IsVisited, addLinkStep_IsExisting] at h1
        exact Or.inr h1

theorem AddURL_raw_identity_spec_witness :
    (({ NewCrawlSession "b" with visitedURLs := ["u"] } : CrawlSession).AddURL "u" 1 =
      { NewCrawlSession "b" with visitedURLs := ["u"] }) ∧
    ((NewCrawlSession "b").AddURL "u" 1).urlQueue = [] ++ ["u"] := by
  constructor
  · exact AddURL_raw_identity_spec.1 _ "u" 1 (Or.inl (by decide))
  · exact (AddURL_raw_identity_spec.2.1 (NewCrawlSession "b") "u" 1
      (by decide) (by decide)).1

/-! ## Claim C4 -/

/-- Claim C4 counterexample: depth is *not* assigned once at first enqueue.
Enqueuing `u` at depth 1 and re-enqueuing it at depth 3 before any
dequeue makes the first dequeue return depth 3: the later enqueue
overwrote the depth, so the last-seen depth wins, not the first-seen. -/
theorem depth_first_enqueue_counterexample :
    ((((NewCrawlSession "b").AddURL "u" 1).AddURL "u" 3).GetNextURL.map
      (fun p => p.1)) = some ("u", 3) := by
  decide

/-- Claim C4 as amended: when a URL still absent from `visited` and
`preexisting` is enqueued again before being dequeued, the depth stored
at the *last* enqueue overwrites the earlier one (last-seen depth wins),
and a dequeue returns the currently stored depth for the popped URL. -/
theorem depth_last_enqueue_wins :
    (∀ (cs : CrawlSession) (url : String) (d1 d2 : Nat),
      cs.visitedURLs.contains url = false → cs.existingURLs.contains url = false →
        ((cs.AddURL url d1).AddURL url d2).depthMap.lookup url = some d2) ∧
    (∀ (cs : CrawlSession) (url : String) (rest : List String),
      cs.urlQueue = url :: rest →
        cs.GetNextURL.map (fun p => p.1) =
          some (url, (cs.depthMap.lookup url).getD 0)) := by
  constructor
  · intro cs url d1 d2 h1 h2
    rw [AddURL_fresh (cs.AddURL url d1) url d2
      (by rw [AddURL_visitedURLs]; exact h1)
      (by rw [AddURL_existingURLs]; exact h2)]
    simp [List.lookup]
  · intro cs url rest h
    unfold CrawlSession.GetNextURL
    rw [h]
    rfl

theorem depth_last_enqueue_wins_witness :
    (((NewCrawlSession "b").AddURL "u" 1).AddURL "u" 3).depthMap.lookup "u" =
      some 3 ∧
    ({ NewCrawlSession "b" with urlQueue := ["u"] } : CrawlSession).GetNextURL.map
      (fun p => p.1) = some ("u", 0) :=
  ⟨depth_last_enqueue_wins.1 (NewCrawlSession "b") "u" 1 3 (by decide) (by decide),
   depth_last_enqueue_wins.2 _ "u" [] rfl⟩

/-! ## Claim C8 -/

/-- The successful entries of a report's merged result list. -/
def successfulResults (rep : Report) : List ScreenshotResult :=
  rep.results.filter (fun r => r.success)

/-- Total byte size over the successful entries of a report. -/
def successFileSizeSum (rep : Report) : Int :=
  ((successfulResults rep).map (fun r => r.fileSize)).sum

theorem reportTotals_foldl (l : List ScreenshotResult) : ∀ t : ReportTotals,
    (l.foldl reportStep t).successCount =
      t.successCount + (l.filter (fun r => r.success)).length ∧
    (l.foldl reportStep t).totalFileSize =
      t.totalFileSize + (((l.filter (fun r => r.success)).map (fun r => r.fileSize)).sum) := by
  induction l with
  | nil => intro t; simp
  | cons r rs ih =>
    intro t
    rw [List.foldl_cons]
    obtain ⟨i1, i2⟩ := ih (reportStep t r)
    rw [i1, i2]
    by_cases hr : r.success = true
    · simp only [List.filter_cons, hr, if_true, List.length_cons, List.map_cons,
        List.sum_cons, reportStep]
      constructor
      · omega
      · ring
    · have hr' : r.success = false := by simpa using hr
      simp only [List.filter_cons, hr', Bool.false_eq_true, if_false, reportStep]
      constructor
      · omega
      · ring

theorem reportTotals_spec (l : List ScreenshotResult) :
    (reportTotals l).successCount = (l.filter (fun r => r.success)).length ∧
    (reportTotals l).totalFileSize =
      ((l.filter (fun r => r.success)).map (fun r => r.fileSize)).sum := by
  have h := reportTotals_foldl l ⟨0, 0, 0, 0⟩
  simpa [reportTotals] using h

/-- Claim C8: the merged report's `AveragePageSize` is the truncated
integer quotient of the total successful byte size by the success count
(computed over successful entries only), `0` when there is no successful
entry; consequently, when every successful file size is non-negative and
at least one success exists, `averagePageSize * successCount` equals the
total successful byte size up to integer-division rounding (within one
`successCount`), and trivially equals `0` when the success count is `0`. -/
theorem generateReport_average_spec (base : String) (sess : CrawlSession)
    (existingReport : Option Report) :
    ((GenerateReport base sess existingReport).successfulScreenshots =
      (successfulResults (GenerateReport base sess existingReport)).length) ∧
    ((GenerateReport base sess existingReport).averagePageSize =
      (if 0 < (successfulResults (GenerateReport base sess existingReport)).length then
        Int.tdiv (successFileSizeSum (GenerateReport base sess existingReport))
          (Int.ofNat (successfulResults (GenerateReport base sess existingReport)).length)
      else 0)) ∧
    ((successfulResults (GenerateReport base sess existingReport)).length = 0 →
      (GenerateReport base sess existingReport).averagePageSize = 0) ∧
    ((∀ r ∈ successfulResults (GenerateReport base sess existingReport), 0 ≤ r.fileSize) →
      0 < (successfulResults (GenerateReport base sess existingReport)).length →
      (GenerateReport base sess existingReport).averagePageSize *
          (successfulResults (GenerateReport base sess existingReport)).length ≤
        successFileSizeSum (GenerateReport base sess existingReport) ∧
      successFileSizeSum (GenerateReport base sess existingReport) <
        (GenerateReport base sess existingReport).averagePageSize *
          (successfulResults (GenerateReport base sess existingReport)).length +
        (successfulResults (GenerateReport base sess existingReport)).length) := by
  set allResults :=
    (match existingReport with
     | some r => r.results
     | none => []) ++ sess.GetResults with hall
  have hres : (GenerateReport base sess existingReport).results = allResults := by
    cases existingReport <;> rfl
  have hsucc : (GenerateReport base sess existingReport).successfulScreenshots =
      (reportTotals allResults).successCount := by
    cases existingReport <;> rfl
  have havg : (GenerateReport base sess existingReport).averagePageSize =
      (if (reportTotals allResults).successCount > 0 then
        Int.tdiv (reportTotals allResults).totalFileSize
          (Int.ofNat (reportTotals allResults).successCount)
      else 0) := by
    cases existingReport <;> rfl
  obtain ⟨hc, hs⟩ := reportTotals_spec allResults
  have hlen : (successfulResults (GenerateReport base sess existingReport)).length =
      (allResults.filter (fun r => r.success)).length := by
    rw [successfulResults, hres]
  have hsum : successFileSizeSum (GenerateReport base sess existingReport) =
      ((allResults.filter (fun r => r.success)).map (fun r => r.fileSize)).sum := by
    rw [successFileSizeSum, successfulResults, hres]
  refine ⟨by rw [hsucc, hc, hlen], ?_, ?_, ?_⟩
  · rw [havg, hlen, hsum, hc, hs]
  · intro h0
    rw [havg, hc, hlen.symm, h0]
    simp
  · intro hnn hpos
    have hS : 0 ≤ successFileSizeSum (GenerateReport base sess existingReport) := by
      rw [successFileSizeSum]
      apply List.sum_nonneg
      intro x hx
      obtain ⟨r, hr, hxr⟩ := List.mem_map.1 hx
      exact hxr ▸ hnn r hr
    have havg2 : (GenerateReport base sess existingReport).averagePageSize =
        Int.tdiv (successFileSizeSum (GenerateReport base sess existingReport))
          ((successfulResults (GenerateReport base sess existingReport)).length : Int) := by
      rw [havg, hc, hs, ← hlen, ← hsum, if_pos hpos]
      norm_cast
    rw [havg2]
    set S := successFileSizeSum (GenerateReport base sess existingReport) with hSdef
    set m := (successfulResults (GenerateReport base sess existingReport)).length with hm
    have hmpos : 0 < (m : Int) := by exact_mod_cast hpos
    rw [Int.tdiv_eq_ediv hS (by omega)]
    have h1 := Int.emod_lt_of_pos S hmpos
    have h2 := Int.ediv_add_emod S (m : Int)
    have h3 : 0 ≤ S % (m : Int) := Int.emod_nonneg S (by omega)
    have h4 : (m : Int) * (S / (m : Int)) = S / (m : Int) * (m : Int) := mul_comm _ _
    omega

theorem generateReport_average_spec_witness :
    ((successfulResults (GenerateReport "b"
        ({ NewCrawlSession "b" with
           results := [⟨"u", "f", true, "", 7, 1⟩, ⟨"v", "g", true, "", 4, 1⟩,
                       ⟨"w", "h", false, "x", 100, 1⟩] }) none)).length = 2) ∧
    ((GenerateReport "b"
        ({ NewCrawlSession "b" with
           results := [⟨"u", "f", true, "", 7, 1⟩, ⟨"v", "g", true, "", 4, 1⟩,
                       ⟨"w", "h", false, "x", 100, 1⟩] }) none).averagePageSize = 5) ∧
    ((GenerateReport "b"
        ({ NewCrawlSession "b" with
           results := [⟨"u", "f", true, "", 7, 1⟩, ⟨"v", "g", true, "", 4, 1⟩,
                       ⟨"w", "h", false, "x", 100, 1⟩] }) none).averagePageSize * 2 ≤ 11 ∧
      (11 : Int) <
        (GenerateReport "b"
          ({ NewCrawlSession "b" with
             results := [⟨"u", "f", true, "", 7, 1⟩, ⟨"v", "g", true, "", 4, 1⟩,
                         ⟨"w", "h", false, "x", 100, 1⟩] }) none).averagePageSize * 2 + 2) := by
  refine ⟨by decide, by decide, ?_⟩
  have h := (generateReport_average_spec "b"
    ({ NewCrawlSession "b" with
       results := [⟨"u", "f", true, "", 7, 1⟩, ⟨"v", "g", true, "", 4, 1⟩,
                   ⟨"w", "h", false, "x", 100, 1⟩] }) none).2.2.2
    (by decide) (by decide)
  have hl : (successfulResults (GenerateReport "b"
      ({ NewCrawlSession "b" with
         results := [⟨"u", "f", true, "", 7, 1⟩, ⟨"v", "g", true, "", 4, 1⟩,
                     ⟨"w", "h", false, "x", 100, 1⟩] }) none)).length = 2 := by decide
  have hs : successFileSizeSum (GenerateReport "b"
      ({ NewCrawlSession "b" with
         results := [⟨"u", "f", true, "", 7, 1⟩, ⟨"v", "g", true, "", 4, 1⟩,
                     ⟨"w", "h", false, "x", 100, 1⟩] }) none) = 11 := by decide
  rw [hl, hs] at h
  exact_mod_cast h

/-! ## Scheduler trace invariants (used by claims C1, C5, C6) -/

theorem AddResult_visitedURLs (cs : CrawlSession) (r : ScreenshotResult) :
    (cs.AddResult r).visitedURLs = cs.visitedURLs := rfl

theorem MarkVisited_IsVisited_mono (s : CrawlSession) (y x : String)
    (h : s.IsVisited x = true) : (s.MarkVisited y).IsVisited x = true := by
  unfold CrawlSession.IsVisited CrawlSession.MarkVisited at *
  simp only [List.contains_cons, Bool.or_eq_true]
  exact Or.inr h

theorem MarkVisited_IsVisited_self (s : CrawlSession) (y : String) :
    (s.MarkVisited y).IsVisited y = true := by
  unfold CrawlSession.IsVisited CrawlSession.MarkVisited
  simp

/-- The joint safety invariant of both crawl schedulers over the ghost
dispatch log: normalized forms of dispatched URLs are pairwise distinct,
every dispatched normalized form is in the visited set, no dispatch
exceeds the configured maximum depth, and no dispatched URL matches a
skip pattern. -/
def GoodLog (cfg : Config) (sess : CrawlSession) (dispatched : List (String × Nat)) : Prop :=
  (dispatched.map (fun p => NormalizeURL p.1)).Nodup ∧
  (∀ p ∈ dispatched, sess.IsVisited (NormalizeURL p.1) = true) ∧
  (∀ p ∈ dispatched, p.2 ≤ cfg.maxDepth) ∧
  (∀ p ∈ dispatched, ShouldSkipURL p.1 cfg.skipPatterns = false)

theorem GoodLog_of_visited_eq (cfg : Config) (s s' : CrawlSession)
    (d : List (String × Nat)) (h : s'.visitedURLs = s.visitedURLs)
    (hg : GoodLog cfg s d) : GoodLog cfg s' d := by
  obtain ⟨h1, h2, h3, h4⟩ := hg
  refine ⟨h1, ?_, h3, h4⟩
  intro p hp
  have := h2 p hp
  unfold CrawlSession.IsVisited at *
  rw [h]
  exact this

theorem GoodLog_markVisited (cfg : Config) (s : CrawlSession) (y : String)
    (d : List (String × Nat)) (hg : GoodLog cfg s d) :
    GoodLog cfg (s.MarkVisited y) d := by
  obtain ⟨h1, h2, h3, h4⟩ := hg
  exact ⟨h1, fun p hp => MarkVisited_IsVisited_mono s y _ (h2 p hp), h3, h4⟩

/-- The capture-and-feedback stage keeps the visited set unchanged. -/
theorem dispatchFeedback_visitedURLs (cfg : Config) (browser : BrowserService)
    (fixRelative : String → String → String) (url : String) (depth : Nat)
    (s : CrawlSession) :
    (dispatchFeedback cfg browser fixRelative url depth s).visitedURLs = s.visitedURLs := by
  unfold dispatchFeedback
  split
  · split
    · rw [addNewLinksToQueue_visitedURLs, AddResult_visitedURLs]
    · rw [AddResult_visitedURLs]
  · rw [AddResult_visitedURLs]

/-- The log extension performed by a dispatch preserves `GoodLog`: the
dispatched URL was unvisited (normalized), within the depth bound, not
skip-matched, and is marked visited before anything else happens. -/
theorem GoodLog_dispatch (cfg : Config) (sess : CrawlSession) (url : String)
    (depth : Nat) (dispatched : List (String × Nat))
    (hg : GoodLog cfg sess dispatched)
    (hvis : sess.IsVisited (NormalizeURL url) = false)
    (hdepth : depth ≤ cfg.maxDepth)
    (hskip : ShouldSkipURL url cfg.skipPatterns = false) :
    GoodLog cfg (sess.MarkVisited (NormalizeURL url))
      (dispatched ++ [(url, depth)]) := by
  obtain ⟨g1, g2, g3, g4⟩ := hg
  refine ⟨?_, ?_, ?_, ?_⟩
  · rw [List.map_append, List.nodup_append]
    refine ⟨g1, List.nodup_singleton _, ?_⟩
    intro x hx hx1
    simp only [List.map_cons, List.map_nil, List.mem_singleton] at hx1
    subst hx1
    obtain ⟨q, hq1, hq2⟩ := List.mem_map.1 hx
    have hqv := g2 q hq1
    rw [hq2] at hqv
    rw [hqv] at hvis
    exact absurd hvis (by simp)
  · intro q hq1
    rcases List.mem_append.1 hq1 with hq2 | hq2
    · exact MarkVisited_IsVisited_mono sess _ _ (g2 q hq2)
    · simp only [List.mem_singleton] at hq2
      subst hq2
      exact MarkVisited_IsVisited_self sess _
  · intro q hq1
    rcases List.mem_append.1 hq1 with hq2 | hq2
    · exact g3 q hq2
    · simp only [List.mem_singleton] at hq2
      subst hq2
      exact hdepth
  · intro q hq1
    rcases List.mem_append.1 hq1 with hq2 | hq2
    · exact g4 q hq2
    · simp only [List.mem_singleton] at hq2
      subst hq2
      exact hskip

theorem seqStep_good (cfg : Config) (browser : BrowserService)
    (fixRelative : String → String → String) (st st' : SeqState)
    (h : seqStep cfg browser fixRelative st = some st')
    (hg : GoodLog cfg st.session st.dispatched) :
    GoodLog cfg st'.session st'.dispatched := by
  unfold seqStep at h
  split at h
  · exact absurd h (by simp)
  · rename_i url depth sess hq
    obtain ⟨hveq, hxeq, hqeq⟩ := GetNextURL_fields st.session ((url, depth), sess) hq
    have hbase : GoodLog cfg sess st.dispatched :=
      GoodLog_of_visited_eq cfg st.session sess st.dispatched hveq hg
    split at h
    · rw [Option.some.injEq] at h
      subst h
      exact hbase
    · split at h
      · rw [Option.some.injEq] at h
        subst h
        exact hbase
      · split at h
        · rw [Option.some.injEq] at h
          subst h
          exact GoodLog_markVisited cfg sess _ st.dispatched hbase
        · split at h
          · rw [Option.some.injEq] at h
            subst h
            exact GoodLog_markVisited cfg sess _ st.dispatched hbase
          · rename_i hdepth hvis hex hskip
            rw [Option.some.injEq] at h
            subst h
            apply GoodLog_of_visited_eq cfg (sess.MarkVisited (NormalizeURL url))
            · exact dispatchFeedback_visitedURLs cfg browser fixRelative url depth
                (sess.MarkVisited (NormalizeURL url))
            · exact GoodLog_dispatch cfg sess url depth st.dispatched hbase
                (by simpa using hvis) (by omega) (by simpa using hskip)

theorem runSequentialCrawl_good (cfg : Config) (browser : BrowserService)
    (fixRelative : String → String → String) (fuel : Nat) :
    ∀ st : SeqState, GoodLog cfg st.session st.dispatched →
      GoodLog cfg (runSequentialCrawl cfg browser fixRelative fuel st).session
        (runSequentialCrawl cfg browser fixRelative fuel st).dispatched := by
  induction fuel with
  | zero => intro st hg; exact hg
  | succ n ih =>
    intro st hg
    unfold runSequentialCrawl
    cases hstep : seqStep cfg browser fixRelative st with
    | none => exact hg
    | some st1 =>
      exact ih st1 (seqStep_good cfg browser fixRelative st st1 hstep hg)

theorem parStep_good (cfg : Config) (browser : BrowserService)
    (fixRelative : String → String → String) (st : ParState) (ch : ParChoice)
    (hg : GoodLog cfg st.session st.dispatched) :
    GoodLog cfg (parStep cfg browser fixRelative st ch).session
      (parStep cfg browser fixRelative st ch).dispatched := by
  cases ch with
  | complete i =>
    have hred : parStep cfg browser fixRelative st (.complete i) =
        (match st.inflight[i]? with
         | none => st
         | some (pageURL, pageDepth) =>
           { st with
             session := dispatchFeedback cfg browser fixRelative pageURL pageDepth st.session
             inflight := st.inflight.eraseIdx i }) := rfl
    rw [hred]
    split
    · exact hg
    · rename_i pageURL pageDepth hq
      exact GoodLog_of_visited_eq cfg st.session _ st.dispatched
        (dispatchFeedback_visitedURLs cfg browser fixRelative pageURL pageDepth st.session) hg
  | dispatchNext =>
    have hred : parStep cfg browser fixRelative st .dispatchNext =
        (if st.loopDone then st
         else
           match st.session.GetNextURL with
           | none => { st with loopDone := true }
           | some ((url, depth), sess) =>
             if depth > cfg.maxDepth then { st with session := sess }
             else if sess.IsVisited (NormalizeURL url) ||
                 sess.IsExisting (NormalizeURL url) then
               { st with session := sess }
             else if ShouldSkipURL url cfg.skipPatterns then
               { st with session := sess }
             else
               { st with
                 session := sess.MarkVisited (NormalizeURL url)
                 inflight := st.inflight ++ [(url, depth)]
                 dispatched := st.dispatched ++ [(url, depth)] }) := rfl
    rw [hred]
    split
    · exact hg
    · split
      · exact hg
      · rename_i url depth sess hq
        obtain ⟨hveq, hxeq, hqeq⟩ := GetNextURL_fields st.session ((url, depth), sess) hq
        have hbase : GoodLog cfg sess st.dispatched :=
          GoodLog_of_visited_eq cfg st.session sess st.dispatched hveq hg
        split
        · exact hbase
        · split
          · exact hbase
          · split
            · exact hbase
            · rename_i hdepth hvisex hskip
              have hvis' : sess.IsVisited (NormalizeURL url) = false := by
                rcases Bool.or_eq_false_iff.1 (by simpa using hvisex) with ⟨hv, _⟩
                exact hv
              exact GoodLog_dispatch cfg sess url depth st.dispatched hbase
                hvis' (by omega) (by simpa using hskip)

theorem runParallelCrawl_good (cfg : Config) (browser : BrowserService)
    (fixRelative : String → String → String) (choices : List ParChoice) :
    ∀ st : ParState, GoodLog cfg st.session st.dispatched →
      GoodLog cfg (runParallelCrawl cfg browser fixRelative choices st).session
        (runParallelCrawl cfg browser fixRelative choices st).dispatched := by
  induction choices with
  | nil => intro st hg; exact hg
  | cons ch rest ih =>
    intro st hg
    unfold runParallelCrawl at ih ⊢
    rw [List.foldl_cons]
    exact ih _ (parStep_good cfg browser fixRelative st ch hg)

/-! ## Concrete collaborators for closed runs -/

/-- A Renderer whose captures always succeed and whose link extraction
finds `http://a.com/b` on the root page — used for concrete runs. -/
def okBrowser : BrowserService where
  capture := fun u =>
    { url := u, filename := "page.png", success := true, error := "", fileSize := 1, duration := 1 }
  extractLinks := fun u =>
    if u = "http://a.com" then some ["http://a.com/b"] else some []

/-- Identity link resolution (links already absolute) for concrete runs. -/
def idFix : String → String → String := fun link _ => link

/-- Concrete configuration with no skip patterns, two workers. -/
def cfgPlain : Config :=
  { baseURL := "http://a.com", maxDepth := 2, parallelWorkers := 2, skipPatterns := [] }

/-- Concrete configuration with one worker and no skip patterns. -/
def cfgSeq : Config :=
  { baseURL := "http://a.com", maxDepth := 2, parallelWorkers := 1, skipPatterns := [] }

/-- Concrete configuration with the default skip pattern. -/
def cfgSkip : Config :=
  { baseURL := "http://a.com", maxDepth := 2, parallelWorkers := 2, skipPatterns := ["/wp-admin"] }

/-! ## Claim C1 -/

/-- Claim C1: in both sequential and parallel mode, starting from any
session with an empty dispatch log, no URL — identified by its
normalized form — is dispatched to the Renderer's capture operation more
than once, for every fuel bound, every interleaving and every behaviour
of the Renderer and of link resolution. -/
theorem no_duplicate_dispatch (cfg : Config) (browser : BrowserService)
    (fixRelative : String → String → String) (sess : CrawlSession) :
    (∀ fuel : Nat,
      ((runSequentialCrawl cfg browser fixRelative fuel
          { session := sess, dispatched := [] }).dispatched.map
        (fun p => NormalizeURL p.1)).Nodup) ∧
    (∀ choices : List ParChoice,
      ((runParallelCrawl cfg browser fixRelative choices
          { session := sess, inflight := [], loopDone := false,
            dispatched := [] }).dispatched.map
        (fun p => NormalizeURL p.1)).Nodup) := by
  have hinit : GoodLog cfg sess [] := by
    refine ⟨by simp, ?_, ?_, ?_⟩ <;> intro p hp <;> exact absurd hp (List.not_mem_nil p)
  exact ⟨fun fuel => (runSequentialCrawl_good cfg browser fixRelative fuel _ hinit).1,
    fun choices => (runParallelCrawl_good cfg browser fixRelative choices _ hinit).1⟩

/-! ## Claim C5 -/

/-- Claim C5: no URL is ever dispatched at a depth exceeding the configured
maximum, in either scheduling mode; a dequeued entry whose depth exceeds
`MaxDepth` is discarded — the state change is exactly the queue pop, so
nothing is dispatched and nothing is marked visited (`dispatchFeedback`,
the only place that enqueues links at `depth+1`, is by definition only
reached with the parent's depth strictly below the maximum). -/
theorem depth_bound_dispatch (cfg : Config) (browser : BrowserService)
    (fixRelative : String → String → String) :
    (∀ (sess : CrawlSession) (fuel : Nat), ∀ p ∈
      (runSequentialCrawl cfg browser fixRelative fuel
        { session := sess, dispatched := [] }).dispatched, p.2 ≤ cfg.maxDepth) ∧
    (∀ (sess : CrawlSession) (choices : List ParChoice), ∀ p ∈
      (runParallelCrawl cfg browser fixRelative choices
        { session := sess, inflight := [], loopDone := false,
          dispatched := [] }).dispatched, p.2 ≤ cfg.maxDepth) ∧
    (∀ (st : SeqState) (url : String) (depth : Nat) (sess' : CrawlSession),
      st.session.GetNextURL = some ((url, depth), sess') → depth > cfg.maxDepth →
        seqStep cfg browser fixRelative st = some { st with session := sess' } ∧
        sess'.visitedURLs = st.session.visitedURLs) ∧
    (∀ (st : ParState) (url : String) (depth : Nat) (sess' : CrawlSession),
      st.loopDone = false →
      st.session.GetNextURL = some ((url, depth), sess') → depth > cfg.maxDepth →
        parStep cfg browser fixRelative st .dispatchNext = { st with session := sess' } ∧
        sess'.visitedURLs = st.session.visitedURLs) := by
  have hinit : ∀ sess : CrawlSession, GoodLog cfg sess [] := by
    intro sess
    refine ⟨by simp, ?_, ?_, ?_⟩ <;> intro p hp <;> exact absurd hp (List.not_mem_nil p)
  refine ⟨?_, ?_, ?_, ?_⟩
  · intro sess fuel p hp
    exact (runSequentialCrawl_good cfg browser fixRelative fuel _ (hinit sess)).2.2.1 p hp
  · intro sess choices p hp
    exact (runParallelCrawl_good cfg browser fixRelative choices _ (hinit sess)).2.2.1 p hp
  · intro st url depth sess' hq hd
    refine ⟨?_, (GetNextURL_fields st.session ((url, depth), sess') hq).1⟩
    unfold seqStep
    rw [hq]
    simp only [if_pos hd]
  · intro st url depth sess' hl hq hd
    refine ⟨?_, (GetNextURL_fields st.session ((url, depth), sess') hq).1⟩
    have hred : parStep cfg browser fixRelative st .dispatchNext =
        (if st.loopDone then st
         else
           match st.session.GetNextURL with
           | none => { st with loopDone := true }
           | some ((url, depth), sess) =>
             if depth > cfg.maxDepth then { st with session := sess }
             else if sess.IsVisited (NormalizeURL url) ||
                 sess.IsExisting (NormalizeURL url) then
               { st with session := sess }
             else if ShouldSkipURL url cfg.skipPatterns then
               { st with session := sess }
             else
               { st with
                 session := sess.MarkVisited (NormalizeURL url)
                 inflight := st.inflight ++ [(url, depth)]
                 dispatched := st.dispatched ++ [(url, depth)] }) := rfl
    rw [hred, hl]
    simp only [Bool.false_eq_true, if_false]
    rw [hq]
    simp only [if_pos hd]

theorem depth_bound_dispatch_witness :
    seqStep cfgSeq okBrowser idFix
      { session := { NewCrawlSession "http://a.com" with
                     urlQueue := ["http://a.com/deep"]
                     depthMap := [("http://a.com/deep", 5)] }
        dispatched := [] } =
      some { session := { NewCrawlSession "http://a.com" with
                          urlQueue := []
                          depthMap := [("http://a.com/deep", 5)] }
             dispatched := [] } := by
  have h := (depth_bound_dispatch cfgSeq okBrowser idFix).2.2.1
    { session := { NewCrawlSession "http://a.com" with
                   urlQueue := ["http://a.com/deep"]
                   depthMap := [("http://a.com/deep", 5)] }
      dispatched := [] }
    "http://a.com/deep" 5
    { NewCrawlSession "http://a.com" with
      urlQueue := []
      depthMap := [("http://a.com/deep", 5)] }
    (by decide) (by decide)
  exact h.1

/-! ## Claim C6 -/

/-- Claim C6 counterexample: in *parallel* mode a skip-matched dequeued URL
is discarded but *not* marked visited — after one dispatch-loop
iteration on `/wp-admin/login` with skip pattern `/wp-admin`, the
visited set is still empty (and the Renderer was never invoked), whereas
the claim requires it to be marked visited in both scheduling modes. -/
theorem skip_pattern_not_marked_visited_in_parallel :
    ShouldSkipURL "http://a.com/wp-admin/login" ["/wp-admin"] = true ∧
    (parStep cfgSkip okBrowser idFix
      { session := { NewCrawlSession "http://a.com" with
                     urlQueue := ["http://a.com/wp-admin/login"] }
        inflight := [], loopDone := false, dispatched := [] }
      .dispatchNext).session.visitedURLs = [] ∧
    (parStep cfgSkip okBrowser idFix
      { session := { NewCrawlSession "http://a.com" with
                     urlQueue := ["http://a.com/wp-admin/login"] }
        inflight := [], loopDone := false, dispatched := [] }
      .dispatchNext).dispatched = [] := by
  refine ⟨by decide, by decide, by decide⟩

/-- Claim C6 as amended: a dequeued URL matching a skip pattern is never
dispatched to the Renderer in either mode; in *sequential* mode it is
marked visited (normalized form) and discarded, but in *parallel* mode
it is discarded without being marked visited. -/
theorem skip_pattern_handling (cfg : Config) (browser : BrowserService)
    (fixRelative : String → String → String) :
    (∀ (st : SeqState) (url : String) (depth : Nat) (sess' : CrawlSession),
      st.session.GetNextURL = some ((url, depth), sess') →
      ¬ depth > cfg.maxDepth →
      sess'.IsVisited (NormalizeURL url) = false →
      sess'.IsExisting (NormalizeURL url) = false →
      ShouldSkipURL url cfg.skipPatterns = true →
        seqStep cfg browser fixRelative st =
          some { st with session := sess'.MarkVisited (NormalizeURL url) }) ∧
    (∀ (st : ParState) (url : String) (depth : Nat) (sess' : CrawlSession),
      st.loopDone = false →
      st.session.GetNextURL = some ((url, depth), sess') →
      ¬ depth > cfg.maxDepth →
      (sess'.IsVisited (NormalizeURL url) || sess'.IsExisting (NormalizeURL url)) = false →
      ShouldSkipURL url cfg.skipPatterns = true →
        parStep cfg browser fixRelative st .dispatchNext = { st with session := sess' }) ∧
    (∀ (sess : CrawlSession) (fuel : Nat), ∀ p ∈
      (runSequentialCrawl cfg browser fixRelative fuel
        { session := sess, dispatched := [] }).dispatched,
      ShouldSkipURL p.1 cfg.skipPatterns = false) ∧
    (∀ (sess : CrawlSession) (choices : List ParChoice), ∀ p ∈
      (runParallelCrawl cfg browser fixRelative choices
        { session := sess, inflight := [], loopDone := false,
          dispatched := [] }).dispatched,
      ShouldSkipURL p.1 cfg.skipPatterns = false) := by
  have hinit : ∀ sess : CrawlSession, GoodLog cfg sess [] := by
    intro sess
    refine ⟨by simp, ?_, ?_, ?_⟩ <;> intro p hp <;> exact absurd hp (List.not_mem_nil p)
  refine ⟨?_, ?_, ?_, ?_⟩
  · intro st url depth sess' hq hd hv hx hskip
    unfold seqStep
    rw [hq]
    simp only [if_neg hd, hv, Bool.false_eq_true, if_false, hx, hskip, if_true]
  · intro st url depth sess' hl hq hd hvx hskip
    have hred : parStep cfg browser fixRelative st .dispatchNext =
        (if st.loopDone then st
         else
           match st.session.GetNextURL with
           | none => { st with loopDone := true }
           | some ((url, depth), sess) =>
             if depth > cfg.maxDepth then { st with session := sess }
             else if sess.IsVisited (NormalizeURL url) ||
                 sess.IsExisting (NormalizeURL url) then
               { st with session := sess }
             else if ShouldSkipURL url cfg.skipPatterns then
               { st with session := sess }
             else
               { st with
                 session := sess.MarkVisited (NormalizeURL url)
                 inflight := st.inflight ++ [(url, depth)]
                 dispatched := st.dispatched ++ [(url, depth)] }) := rfl
    rw [hred, hl]
    simp only [Bool.false_eq_true, if_false]
    rw [hq]
    simp only [if_neg hd, hvx, Bool.false_eq_true, if_false, hskip, if_true]
  · intro sess fuel p hp
    exact (runSequentialCrawl_good cfg browser fixRelative fuel _ (hinit sess)).2.2.2 p hp
  · intro sess choices p hp
    exact (runParallelCrawl_good cfg browser fixRelative choices _ (hinit sess)).2.2.2 p hp

theorem skip_pattern_handling_witness :
    seqStep cfgSkip okBrowser idFix
      { session := { NewCrawlSession "http://a.com" with
                     urlQueue := ["http://a.com/wp-admin/login"] }
        dispatched := [] } =
      some { session := ({ NewCrawlSession "http://a.com" with
                           urlQueue := [] } : CrawlSession).MarkVisited
               (NormalizeURL "http://a.com/wp-admin/login")
             dispatched := [] } := by
  exact (skip_pattern_handling cfgSkip okBrowser idFix).1
    { session := { NewCrawlSession "http://a.com" with
                   urlQueue := ["http://a.com/wp-admin/login"] }
      dispatched := [] }
    "http://a.com/wp-admin/login" 0
    { NewCrawlSession "http://a.com" with urlQueue := [] }
    (by decide) (by decide) (by decide) (by decide) (by decide)

/-! ## Claim C3 -/

/-- Claim C3 (the code loses work): the parallel dispatch loop exits as
soon as the queue is momentarily empty even though a capture task is
still in flight; a link that task then feeds back is left in the queue
at the terminal state — the run ends (`Terminated`: loop exited and
`wg.Wait()` returned) with a non-empty queue and the new URL never
dispatched, contradicting "terminal only when the queue is empty" and
"work enqueued by an in-flight task is still processed". -/
theorem runParallelCrawl_drops_late_work :
    (runParallelCrawl cfgPlain okBrowser idFix
      [.dispatchNext, .dispatchNext, .complete 0]
      (initParState cfgPlain (NewCrawlSession "http://a.com"))).Terminated ∧
    (runParallelCrawl cfgPlain okBrowser idFix
      [.dispatchNext, .dispatchNext, .complete 0]
      (initParState cfgPlain (NewCrawlSession "http://a.com"))).session.urlQueue =
      ["http://a.com/b"] ∧
    (runParallelCrawl cfgPlain okBrowser idFix
      [.dispatchNext, .dispatchNext, .complete 0]
      (initParState cfgPlain (NewCrawlSession "http://a.com"))).dispatched =
      [("http://a.com", 0)] := by
  refine ⟨⟨by decide, by decide⟩, by decide, by decide⟩

/-! ## Claim C9: character-class facts -/

namespace GoNetURL

theorem schemeChar_safe (c : Char) (h : schemeChar c = true) :
    isCTL c = false ∧ c ≠ '%' ∧ c ≠ '#' ∧ c ≠ '?' ∧ c ≠ '/' ∧ c ≠ ':' := by
  unfold schemeChar isAlphaCh isDigitCh at h
  simp only [Bool.or_eq_true, Bool.and_eq_true, decide_eq_true_eq, beq_iff_eq] at h
  refine ⟨?_, ?_, ?_, ?_, ?_, ?_⟩
  · unfold isCTL
    simp only [Bool.or_eq_false_iff, decide_eq_false_iff_not]
    rcases h with ((((h | h) | h) | h) | h) | h <;> first | omega | (subst h; decide)
  all_goals intro heq; subst heq; exact absurd h (by decide)

theorem hostChar_safe (c : Char) (h : hostChar c = true) :
    isCTL c = false ∧ c ≠ '%' ∧ c ≠ '#' ∧ c ≠ '?' ∧ c ≠ '/' := by
  unfold hostChar isAlphaCh isDigitCh at h
  simp only [Bool.or_eq_true, Bool.and_eq_true, decide_eq_true_eq, beq_iff_eq] at h
  refine ⟨?_, ?_, ?_, ?_, ?_⟩
  · unfold isCTL
    simp only [Bool.or_eq_false_iff, decide_eq_false_iff_not]
    rcases h with (((h | h) | h) | h) | h <;> first | omega | (subst h; decide)
  all_goals intro heq; subst heq; exact absurd h (by decide)

theorem pathChar_safe (c : Char) (h : pathChar c = true) :
    isCTL c = false ∧ c ≠ '%' ∧ c ≠ '#' ∧ c ≠ '?' := by
  unfold pathChar isAlphaCh isDigitCh at h
  simp only [Bool.or_eq_true, Bool.and_eq_true, decide_eq_true_eq] at h
  refine ⟨?_, ?_, ?_, ?_⟩
  · unfold isCTL
    simp only [Bool.or_eq_false_iff, decide_eq_false_iff_not]
    rcases h with (h | h) | h
    · omega
    · omega
    · have hm : c ∈ "/-._~:@+,;=&$!*()".data := by simpa using h
      simp only [String.data] at hm
      rcases (by simpa using hm :
          c = '/' ∨ c = '-' ∨ c = '.' ∨ c = '_' ∨ c = '~' ∨ c = ':' ∨ c = '@' ∨
          c = '+' ∨ c = ',' ∨ c = ';' ∨ c = '=' ∨ c = '&' ∨ c = '$' ∨ c = '!' ∨
          c = '*' ∨ c = '(' ∨ c = ')') with
        h | h | h | h | h | h | h | h | h | h | h | h | h | h | h | h | h <;>
        (subst h; decide)
  all_goals intro heq; subst heq; exact absurd h (by decide)

theorem opaqueChar_safe (c : Char) (h : opaqueChar c = true) :
    isCTL c = false ∧ c ≠ '%' ∧ c ≠ '#' ∧ c ≠ '?' := by
  unfold opaqueChar at h
  simp only [Bool.and_eq_true, Bool.not_eq_true', bne_iff_ne, ne_eq] at h
  exact ⟨h.1.1.1, h.1.1.2, h.1.2, h.2⟩

theorem slashChar_path : pathChar '/' = true := by decide

theorem isAlphaCh_not_colon (c : Char) (h : isAlphaCh c = true) : c ≠ ':' := by
  intro heq; subst heq; exact absurd h (by decide)

theorem isAlphaCh_not_slash (c : Char) (h : isAlphaCh c = true) : c ≠ '/' := by
  intro heq; subst heq; exact absurd h (by decide)

/-! ### `toLowerCh` facts -/

theorem toNat_ofNat_valid (n : Nat) (h : n < 0xd800) : (Char.ofNat n).toNat = n := by
  unfold Char.ofNat
  rw [dif_pos (Or.inl h)]
  rfl

theorem toLowerCh_toNat (c : Char) :
    (toLowerCh c).toNat =
      if 65 ≤ c.toNat ∧ c.toNat ≤ 90 then c.toNat + 32 else c.toNat := by
  unfold toLowerCh
  split
  · rename_i hr
    rw [toNat_ofNat_valid _ (by omega)]
  · rfl

theorem toLowerCh_eq_self (c : Char) (h : ¬(65 ≤ c.toNat ∧ c.toNat ≤ 90)) :
    toLowerCh c = c := by
  unfold toLowerCh
  rw [if_neg h]

theorem toLowerCh_idem (c : Char) : toLowerCh (toLowerCh c) = toLowerCh c := by
  apply toLowerCh_eq_self
  rw [toLowerCh_toNat]
  by_cases hr : 65 ≤ c.toNat ∧ c.toNat ≤ 90
  · rw [if_pos hr]; omega
  · rw [if_neg hr]; omega

theorem isAlphaCh_toLowerCh (c : Char) (h : isAlphaCh c = true) :
    isAlphaCh (toLowerCh c) = true := by
  unfold isAlphaCh at h ⊢
  simp only [Bool.or_eq_true, Bool.and_eq_true, decide_eq_true_eq] at h ⊢
  rw [toLowerCh_toNat]
  rcases h with h | h
  · rw [if_pos (by omega)]; omega
  · rw [if_neg (by omega)]; omega

theorem schemeChar_toLowerCh (c : Char) (h : schemeChar c = true) :
    schemeChar (toLowerCh c) = true := by
  by_cases hr : 65 ≤ c.toNat ∧ c.toNat ≤ 90
  · have halpha : isAlphaCh (toLowerCh c) = true := by
      apply isAlphaCh_toLowerCh
      unfold isAlphaCh
      simp only [Bool.or_eq_true, Bool.and_eq_true, decide_eq_true_eq]
      exact Or.inl hr
    unfold schemeChar
    rw [halpha]
    simp
  · rw [toLowerCh_eq_self c hr]
    exact h

/-! ### Splitting lemmas -/

theorem cutFirst_eq_none (c : Char) (l : List Char) (h : ∀ x ∈ l, x ≠ c) :
    cutFirst c l = none := by
  induction l with
  | nil => rfl
  | cons a t ih =>
    unfold cutFirst
    rw [if_neg (h a (List.mem_cons_self a t))]
    rw [ih (fun x hx => h x (List.mem_cons_of_mem a hx))]
    rfl

theorem cutFirst_concat (c : Char) (l r : List Char) (h : ∀ x ∈ l, x ≠ c) :
    cutFirst c (l ++ c :: r) = some (l, r) := by
  induction l with
  | nil => simp [cutFirst]
  | cons a t ih =>
    rw [List.cons_append]
    unfold cutFirst
    rw [if_neg (h a (List.mem_cons_self a t))]
    rw [ih (fun x hx => h x (List.mem_cons_of_mem a hx))]
    rfl

theorem spanUntil_eq_self (c : Char) (l : List Char) (h : ∀ x ∈ l, x ≠ c) :
    spanUntil c l = (l, []) := by
  induction l with
  | nil => rfl
  | cons a t ih =>
    unfold spanUntil
    rw [if_neg (h a (List.mem_cons_self a t))]
    rw [ih (fun x hx => h x (List.mem_cons_of_mem a hx))]

theorem spanUntil_concat (c : Char) (l r : List Char) (h : ∀ x ∈ l, x ≠ c) :
    spanUntil c (l ++ c :: r) = (l, c :: r) := by
  induction l with
  | nil => simp [spanUntil]
  | cons a t ih =>
    rw [List.cons_append]
    unfold spanUntil
    rw [if_neg (h a (List.mem_cons_self a t))]
    rw [ih (fun x hx => h x (List.mem_cons_of_mem a hx))]

theorem splitFragment_no_hash (l : List Char) (h : ∀ x ∈ l, x ≠ '#') :
    splitFragment l = (l, []) := by
  unfold splitFragment
  rw [cutFirst_eq_none '#' l h]

theorem splitQuery_no_query (l : List Char) (h : ∀ x ∈ l, x ≠ '?') :
    splitQuery l = (l, [], false) := by
  unfold splitQuery
  rw [cutFirst_eq_none '?' l h]

theorem splitQuery_trailing (l : List Char) (h : ∀ x ∈ l, x ≠ '?') :
    splitQuery (l ++ ['?']) = (l, [], true) := by
  unfold splitQuery
  rw [show (['?'] : List Char) = '?' :: [] from rfl, cutFirst_concat '?' l [] h]
  rfl

/-! ### Scheme-scan lemmas -/

theorem findSchemeSplit_concat (s r : List Char)
    (hs : ∀ x ∈ s, schemeChar x = true) :
    findSchemeSplit (s ++ ':' :: r) = some (s, r) := by
  induction s with
  | nil => simp [findSchemeSplit]
  | cons a t ih =>
    rw [List.cons_append]
    unfold findSchemeSplit
    have ha := hs a (List.mem_cons_self a t)
    rw [if_neg ((schemeChar_safe a ha).2.2.2.2.2)]
    rw [if_pos ha]
    rw [ih (fun x hx => hs x (List.mem_cons_of_mem a hx))]
    rfl

theorem findSchemeSplit_spec (l : List Char) :
    ∀ s r, findSchemeSplit l = some (s, r) →
      l = s ++ ':' :: r ∧ ∀ x ∈ s, schemeChar x = true := by
  induction l with
  | nil =>
    intro s r h
    rw [show findSchemeSplit ([] : List Char) = none from rfl] at h
    exact absurd h (by simp)
  | cons a t ih =>
    intro s r h
    unfold findSchemeSplit at h
    by_cases ha : a = ':'
    · rw [if_pos ha] at h
      simp only [Option.some.injEq, Prod.mk.injEq] at h
      obtain ⟨h1, h2⟩ := h
      subst h1; subst h2; subst ha
      exact ⟨rfl, by simp⟩
    · rw [if_neg ha] at h
      by_cases hsc : schemeChar a = true
      · rw [if_pos hsc] at h
        cases hfs : findSchemeSplit t with
        | none => rw [hfs] at h; exact Option.noConfusion h
        | some p =>
          rw [hfs] at h
          obtain ⟨s0, r0⟩ := p
          replace h : some ((a :: s0, r0) : List Char × List Char) = some (s, r) := h
          simp only [Option.some.injEq, Prod.mk.injEq] at h
          obtain ⟨hs, hr⟩ := h
          obtain ⟨hl, hall⟩ := ih s0 r0 hfs
          subst hs
          subst hr
          constructor
          · rw [List.cons_append, ← hl]
          · intro x hx
            rcases List.mem_cons.1 hx with hx | hx
            · subst hx; exact hsc
            · exact hall x hx
      · rw [if_neg hsc] at h
        exact absurd h (by simp)

theorem findSchemeSplit_none_of_colon_free (l : List Char)
    (h : ':' ∉ firstSegment l) : findSchemeSplit l = none := by
  induction l with
  | nil => rfl
  | cons a t ih =>
    unfold findSchemeSplit
    by_cases ha : a = ':'
    · exfalso
      apply h
      subst ha
      unfold firstSegment spanUntil
      rw [if_neg (by decide)]
      exact List.mem_cons_self ':' _
    · rw [if_neg ha]
      by_cases hsc : schemeChar a = true
      · have hslash := (schemeChar_safe a hsc).2.2.2.2.1
        have ht : ':' ∉ firstSegment t := by
          intro hmem
          apply h
          unfold firstSegment spanUntil
          rw [if_neg hslash]
          exact List.mem_cons_of_mem a hmem
        rw [if_pos hsc, ih ht]
        rfl
      · rw [if_neg hsc]

theorem getScheme_noScheme (l : List Char) (h : ':' ∉ firstSegment l) :
    getScheme l = some ([], l) := by
  cases l with
  | nil => rfl
  | cons a t =>
    simp only [getScheme]
    by_cases ha : a = ':'
    · exfalso
      apply h
      subst ha
      unfold firstSegment spanUntil
      rw [if_neg (by decide)]
      exact List.mem_cons_self ':' _
    · rw [if_neg ha]
      by_cases hα : isAlphaCh a = true
      · rw [hα]
        simp only [Bool.not_true, Bool.false_eq_true, if_false]
        rw [findSchemeSplit_none_of_colon_free (a :: t) h]
      · rw [Bool.not_eq_true] at hα
        rw [hα]
        simp

theorem getScheme_concat (c : Char) (s r : List Char)
    (hα : isAlphaCh c = true) (hall : ∀ x ∈ c :: s, schemeChar x = true) :
    getScheme ((c :: s) ++ ':' :: r) = some ((c :: s).map toLowerCh, r) := by
  rw [List.cons_append]
  simp only [getScheme]
  rw [if_neg (isAlphaCh_not_colon c hα), hα]
  simp only [Bool.not_true, Bool.false_eq_true, if_false]
  rw [← List.cons_append]
  rw [findSchemeSplit_concat (c :: s) r hall]

/-- Well-formedness of a scheme as returned by `getScheme`: empty, or
alpha-headed, made of scheme characters, and stable under lowercasing. -/
def SchemeOK (s : List Char) : Prop :=
  s = [] ∨ (∃ c t, s = c :: t ∧ isAlphaCh c = true ∧
    (∀ x ∈ s, schemeChar x = true) ∧ s.map toLowerCh = s)

theorem getScheme_schemeOK (l scheme rest : List Char)
    (h : getScheme l = some (scheme, rest)) : SchemeOK scheme := by
  cases l with
  | nil =>
    simp only [getScheme, Option.some.injEq, Prod.mk.injEq] at h
    exact Or.inl h.1.symm
  | cons a t =>
    simp only [getScheme] at h
    by_cases ha : a = ':'
    · rw [if_pos ha] at h; exact absurd h (by simp)
    · rw [if_neg ha] at h
      by_cases hα : isAlphaCh a = true
      · rw [hα] at h
        simp only [Bool.not_true, Bool.false_eq_true, if_false] at h
        cases hfs : findSchemeSplit (a :: t) with
        | none =>
          rw [hfs] at h
          simp only [Option.some.injEq, Prod.mk.injEq] at h
          exact Or.inl h.1.symm
        | some p =>
          rw [hfs] at h
          obtain ⟨s0, r0⟩ := p
          replace h : some ((s0.map toLowerCh, r0) : List Char × List Char) =
              some (scheme, rest) := h
          simp only [Option.some.injEq, Prod.mk.injEq] at h
          obtain ⟨hsch, hrest⟩ := h
          obtain ⟨hl, hall⟩ := findSchemeSplit_spec (a :: t) s0 r0 hfs
          cases s0 with
          | nil =>
            exact absurd (by simpa using hl : a = ':' ∧ t = r0).1 ha
          | cons c0 t0 =>
            have hc0 : c0 = a := by
              rw [List.cons_append] at hl
              injection hl with h1 _
              exact h1.symm
            right
            refine ⟨toLowerCh c0, t0.map toLowerCh, ?_, ?_, ?_, ?_⟩
            · rw [← hsch, List.map_cons]
            · apply isAlphaCh_toLowerCh
              rw [hc0]; exact hα
            · intro x hx
              rw [← hsch] at hx
              simp only [List.map_cons, List.mem_cons, List.mem_map] at hx
              rcases hx with hx | ⟨y, hy, hxy⟩
              · subst hx
                exact schemeChar_toLowerCh c0 (hall c0 (List.mem_cons_self c0 t0))
              · subst hxy
                exact schemeChar_toLowerCh y (hall y (List.mem_cons_of_mem c0 hy))
            · rw [← hsch]
              simp only [List.map_cons, List.map_map, List.cons.injEq]
              constructor
              · exact toLowerCh_idem c0
              · rw [show toLowerCh ∘ toLowerCh = toLowerCh from funext toLowerCh_idem]
      · rw [Bool.not_eq_true] at hα
        rw [hα] at h
        simp only [Bool.not_false, if_true, Option.some.injEq, Prod.mk.injEq] at h
        exact Or.inl h.1.symm

/-! ### `firstSegment` and prefix lemmas -/

theorem firstSegment_head_slash (t : List Char) : firstSegment ('/' :: t) = [] := by
  unfold firstSegment spanUntil
  rw [if_pos rfl]

theorem firstSegment_cons_ne (a : Char) (t : List Char) (ha : a ≠ '/') :
    firstSegment (a :: t) = a :: firstSegment t := by
  unfold firstSegment
  rw [show spanUntil '/' (a :: t) =
    (if a = '/' then ([], a :: t)
     else (a :: (spanUntil '/' t).1, (spanUntil '/' t).2)) from rfl]
  rw [if_neg ha]

theorem firstSegment_colon_free_append (l : List Char) (c : Char) (hc : c ≠ ':')
    (h : ':' ∉ firstSegment l) : ':' ∉ firstSegment (l ++ [c]) := by
  induction l with
  | nil =>
    by_cases hcs : c = '/'
    · subst hcs
      rw [List.nil_append, firstSegment_head_slash]
      simp
    · rw [List.nil_append, firstSegment_cons_ne c [] hcs]
      intro hm
      rcases List.mem_cons.1 hm with hm | hm
      · exact hc hm.symm
      · exact absurd hm (by simp [firstSegment, spanUntil])
  | cons a t ih =>
    by_cases ha : a = '/'
    · subst ha
      rw [List.cons_append, firstSegment_head_slash]
      simp
    · rw [List.cons_append, firstSegment_cons_ne a _ ha]
      rw [firstSegment_cons_ne a t ha] at h
      intro hm
      rcases List.mem_cons.1 hm with hm | hm
      · exact h (hm ▸ List.mem_cons_self a _)
      · exact ih (fun hx => h (List.mem_cons_of_mem a hx)) hm

theorem mem_firstSegment_dropLast (l : List Char) (x : Char)
    (hx : x ∈ firstSegment l.dropLast) : x ∈ firstSegment l := by
  induction l with
  | nil => simpa using hx
  | cons a t ih =>
    cases t with
    | nil => simp [firstSegment, spanUntil] at hx
    | cons b u =>
      rw [show (a :: b :: u).dropLast = a :: (b :: u).dropLast from rfl] at hx
      by_cases ha : a = '/'
      · subst ha
        rw [firstSegment_head_slash] at hx
        simp at hx
      · rw [firstSegment_cons_ne a _ ha] at hx ⊢
        rcases List.mem_cons.1 hx with hx | hx
        · exact hx ▸ List.mem_cons_self a _
        · exact List.mem_cons_of_mem a (ih hx)

theorem isPrefixOf_two_iff (l : List Char) :
    (['/', '/'].isPrefixOf l = true) ↔ ∃ t, l = '/' :: '/' :: t := by
  cases l with
  | nil => simp [List.isPrefixOf]
  | cons a t =>
    cases t with
    | nil => simp [List.isPrefixOf]
    | cons b u =>
      simp only [List.isPrefixOf, Bool.and_eq_true, beq_iff_eq, List.isPrefixOf_nil_left]
      constructor
      · rintro ⟨h1, h2, _⟩
        exact ⟨u, by rw [← h1, ← h2]⟩
      · rintro ⟨t0, ht⟩
        injection ht with h1 ht
        injection ht with h2 _
        exact ⟨h1.symm, h2.symm, trivial⟩

theorem isPrefixOf_three_iff (l : List Char) :
    (['/', '/', '/'].isPrefixOf l = true) ↔ ∃ t, l = '/' :: '/' :: '/' :: t := by
  cases l with
  | nil => simp [List.isPrefixOf]
  | cons a t =>
    cases t with
    | nil => simp [List.isPrefixOf]
    | cons b u =>
      cases u with
      | nil => simp [List.isPrefixOf]
      | cons c v =>
        simp only [List.isPrefixOf, Bool.and_eq_true, beq_iff_eq, List.isPrefixOf_nil_left]
        constructor
        · rintro ⟨h1, h2, h3, _⟩
          exact ⟨v, by rw [← h1, ← h2, ← h3]⟩
        · rintro ⟨t0, ht⟩
          injection ht with h1 ht
          injection ht with h2 ht
          injection ht with h3 _
          exact ⟨h1.symm, h2.symm, h3.symm, trivial⟩

/-! ### `normPath` lemmas -/

/-- The path ends in two consecutive slashes (the shape on which one
application of `strings.TrimSuffix(path, "/")` leaves a trailing
slash behind). -/
def endsDoubleSlash (p : List Char) : Bool :=
  decide (p.getLast? = some '/') && decide (p.dropLast.getLast? = some '/')

theorem normPath_root : normPath ['/'] = ['/'] := by decide

theorem normPath_no_trailing (q : List Char) (hq : q ≠ [])
    (hl : q.getLast? ≠ some '/') : normPath q = q := by
  unfold normPath trimSuffixSlash
  rw [if_neg hq, if_neg hl, if_neg hq]

theorem normPath_cases (p : List Char) :
    ((p = [] ∨ p = ['/']) ∧ normPath p = ['/']) ∨
    (normPath p = p ∧ p ≠ [] ∧ p.getLast? ≠ some '/') ∨
    (normPath p = p.dropLast ∧ p.dropLast ≠ [] ∧ p.getLast? = some '/') := by
  by_cases hp : p = []
  · subst hp
    exact Or.inl ⟨Or.inl rfl, by decide⟩
  · by_cases hl : p.getLast? = some '/'
    · by_cases hd : p.dropLast = []
      · left
        refine ⟨Or.inr ?_, ?_⟩
        · cases p with
          | nil => exact absurd rfl hp
          | cons a t =>
            cases t with
            | nil =>
              simp only [List.getLast?_singleton, Option.some.injEq] at hl
              rw [hl]
            | cons b u => simp at hd
        · unfold normPath trimSuffixSlash
          rw [if_neg hp, if_pos hl, if_pos hd]
      · right; right
        refine ⟨?_, hd, hl⟩
        unfold normPath trimSuffixSlash
        rw [if_neg hp, if_pos hl, if_neg hd]
    · exact Or.inr (Or.inl ⟨normPath_no_trailing p hp hl, hp, hl⟩)

theorem normPath_ne_nil (p : List Char) : normPath p ≠ [] := by
  rcases normPath_cases p with ⟨_, h⟩ | ⟨h, hne, _⟩ | ⟨h, hd, _⟩
  · rw [h]; simp
  · rw [h]; exact hne
  · rw [h]; exact hd

theorem normPath_idem (p : List Char) (hdd : endsDoubleSlash p = false) :
    normPath (normPath p) = normPath p := by
  have hdd' : ¬(p.getLast? = some '/' ∧ p.dropLast.getLast? = some '/') := by
    simpa [endsDoubleSlash] using hdd
  rcases normPath_cases p with ⟨_, h⟩ | ⟨h, hne, hl⟩ | ⟨h, hd, hl⟩
  · rw [h]; exact normPath_root
  · rw [h]; exact normPath_no_trailing p hne hl
  · rw [h]
    exact normPath_no_trailing p.dropLast hd (fun hc => hdd' ⟨hl, hc⟩)

theorem normPath_all (p : List Char) (h : p.all pathChar = true) :
    (normPath p).all pathChar = true := by
  rcases normPath_cases p with ⟨_, hc⟩ | ⟨hc, _, _⟩ | ⟨hc, _, _⟩
  · rw [hc]; decide
  · rw [hc]; exact h
  · rw [hc]
    rw [List.all_eq_true] at h ⊢
    intro x hx
    exact h x (List.dropLast_subset p hx)

theorem head?_dropLast (l : List Char) (h : l.dropLast ≠ []) :
    l.dropLast.head? = l.head? := by
  cases l with
  | nil => simp at h
  | cons a t =>
    cases t with
    | nil => simp at h
    | cons b u => rfl

theorem normPath_head_slash (p : List Char) (h : p = [] ∨ p.head? = some '/') :
    (normPath p).head? = some '/' := by
  rcases normPath_cases p with ⟨_, hc⟩ | ⟨hc, hne, _⟩ | ⟨hc, hd, _⟩
  · rw [hc]; rfl
  · rw [hc]
    rcases h with h | h
    · exact absurd h hne
    · exact h
  · rw [hc, head?_dropLast p hd]
    rcases h with h | h
    · subst h; simp at hd
    · exact h

theorem normPath_not_two (p : List Char)
    (h2 : ['/', '/'].isPrefixOf p = false) :
    ['/', '/'].isPrefixOf (normPath p) = false := by
  rcases normPath_cases p with ⟨_, hc⟩ | ⟨hc, _, _⟩ | ⟨hc, hd, _⟩
  · rw [hc]; decide
  · rw [hc]; exact h2
  · rw [hc]
    by_contra hcon
    rw [Bool.not_eq_false] at hcon
    obtain ⟨t, ht⟩ := (isPrefixOf_two_iff p.dropLast).1 hcon
    have hpnil : p ≠ [] := by intro hnil; subst hnil; simp at hd
    have hdl := List.dropLast_append_getLast (l := p) hpnil
    rw [ht] at hdl
    have h2t : ['/', '/'].isPrefixOf p = true := by
      rw [isPrefixOf_two_iff]
      exact ⟨t ++ [p.getLast hpnil], hdl.symm⟩
    rw [h2t] at h2
    exact absurd h2 (by simp)

theorem normPath_three (p : List Char) (h3 : ['/', '/', '/'].isPrefixOf p = true)
    (hdd : endsDoubleSlash p = false) :
    ['/', '/', '/'].isPrefixOf (normPath p) = true := by
  obtain ⟨t, ht⟩ := (isPrefixOf_three_iff p).1 h3
  subst ht
  cases t with
  | nil => exact absurd hdd (by decide)
  | cons d v =>
    rcases normPath_cases ('/' :: '/' :: '/' :: d :: v) with ⟨hc, _⟩ | ⟨hc, _, _⟩ | ⟨hc, hd, _⟩
    · rcases hc with hc | hc <;> simp at hc
    · rw [hc, isPrefixOf_three_iff]
      exact ⟨d :: v, rfl⟩
    · rw [hc, isPrefixOf_three_iff]
      exact ⟨(d :: v).dropLast, rfl⟩

theorem normPath_colon_free (p : List Char) (h : ':' ∉ firstSegment p) :
    ':' ∉ firstSegment (normPath p) := by
  rcases normPath_cases p with ⟨_, hc⟩ | ⟨hc, _, _⟩ | ⟨hc, _, _⟩
  · rw [hc, firstSegment_head_slash]
    simp
  · rw [hc]; exact h
  · rw [hc]
    intro hm
    exact h (mem_firstSegment_dropLast p ':' hm)

/-! ### Reparse lemmas: parsing a rendered normalized URL -/

/-- The shared head of every reparse: no control or `%` byte and no `#`
reduce `parse` to `getScheme` followed by `parseAfterScheme`. -/
theorem parse_steps (raw : List Char)
    (hbad : raw.any (fun c => isCTL c || c == '%') = false)
    (hhash : ∀ x ∈ raw, x ≠ '#') :
    parse raw =
      (match getScheme raw with
       | none => none
       | some (scheme, rest0) =>
         parseAfterScheme scheme (splitQuery rest0).1 (splitQuery rest0).2.1
           (splitQuery rest0).2.2 []) := by
  unfold parse
  rw [splitFragment_no_hash raw hhash]
  simp only [hbad, Bool.false_eq_true, if_false]

/-- `parse` through an already-computed `getScheme` result. -/
theorem parse_of_getScheme (raw scheme rest0 : List Char)
    (hbad : raw.any (fun c => isCTL c || c == '%') = false)
    (hhash : ∀ x ∈ raw, x ≠ '#')
    (hgs : getScheme raw = some (scheme, rest0)) :
    parse raw =
      parseAfterScheme scheme (splitQuery rest0).1 (splitQuery rest0).2.1
        (splitQuery rest0).2.2 [] := by
  rw [parse_steps raw hbad hhash, hgs]

/-- A character list whose members are plain (no control, `%`, `#`, `?`),
optionally followed by one `?`, passes the global byte check and is
`#`-free. -/
theorem raw_checks (l qp : List Char)
    (h : ∀ x ∈ l, isCTL x = false ∧ x ≠ '%' ∧ x ≠ '#' ∧ x ≠ '?')
    (hqp : qp = [] ∨ qp = ['?']) :
    (l ++ qp).any (fun c => isCTL c || c == '%') = false ∧
    (∀ x ∈ l ++ qp, x ≠ '#') := by
  constructor
  · rw [List.any_eq_false]
    intro c hc
    rcases List.mem_append.1 hc with hc | hc
    · obtain ⟨h1, h2, _, _⟩ := h c hc
      simp [h1, h2]
    · rcases hqp with hqp | hqp <;> subst hqp
      · simp at hc
      · simp only [List.mem_singleton] at hc
        subst hc
        decide
  · intro x hx
    rcases List.mem_append.1 hx with hx | hx
    · exact (h x hx).2.2.1
    · rcases hqp with hqp | hqp <;> subst hqp
      · simp at hx
      · simp only [List.mem_singleton] at hx
        subst hx
        decide

theorem scheme_plain (scheme : List Char)
    (hall : ∀ x ∈ scheme, schemeChar x = true) :
    ∀ x ∈ scheme ++ [':'], isCTL x = false ∧ x ≠ '%' ∧ x ≠ '#' ∧ x ≠ '?' := by
  intro x hx
  rcases List.mem_append.1 hx with hx | hx
  · obtain ⟨h1, h2, h3, h4, _, _⟩ := schemeChar_safe x (hall x hx)
    exact ⟨h1, h2, h3, h4⟩
  · simp only [List.mem_singleton] at hx
    subst hx
    refine ⟨by decide, by decide, by decide, by decide⟩

theorem getScheme_head_slash (l : List Char) (h : l.head? = some '/') :
    getScheme l = some ([], l) := by
  cases l with
  | nil => simp at h
  | cons a t =>
    simp only [List.head?_cons, Option.some.injEq] at h
    subst h
    simp only [getScheme]
    rw [if_neg (by decide)]
    rw [show isAlphaCh '/' = false from by decide]
    simp

theorem head?_append_left (p q : List Char) (hp : p ≠ []) :
    (p ++ q).head? = p.head? := by
  cases p with
  | nil => exact absurd rfl hp
  | cons a t => rfl

theorem two_implies_head (p : List Char) (h : ['/', '/'].isPrefixOf p = true) :
    p.head? = some '/' := by
  obtain ⟨t, ht⟩ := (isPrefixOf_two_iff p).1 h
  subst ht
  rfl

/-- Reparsing the rendered form of a normalized opaque URL. -/
theorem parse_urlString_opaque (scheme opq p : List Char) (fq : Bool)
    (hs : SchemeOK scheme) (hsne : scheme ≠ [])
    (hopq : opq.all opaqueChar = true) (hone : opq ≠ [])
    (hhead : opq.head? ≠ some '/') :
    parse (urlString ⟨scheme, opq, [], p, [], fq, false, []⟩) =
      some ⟨scheme, opq, [], [], [], fq, false, []⟩ := by
  obtain ⟨c, t, hsc, hα, hall, hlower⟩ :
      ∃ c t, scheme = c :: t ∧ isAlphaCh c = true ∧
        (∀ x ∈ scheme, schemeChar x = true) ∧ scheme.map toLowerCh = scheme := by
    rcases hs with h | ⟨c, t, h1, h2, h3, h4⟩
    · exact absurd h hsne
    · exact ⟨c, t, h1, h2, h3, h4⟩
  have hopq' : ∀ x ∈ opq, opaqueChar x = true := by
    rw [List.all_eq_true] at hopq
    exact fun x hx => hopq x hx
  have hout : urlString ⟨scheme, opq, [], p, [], fq, false, []⟩ =
      scheme ++ ':' :: (opq ++ (if fq then ['?'] else [])) := by
    cases fq <;> simp [urlString, hsne, hone]
  rw [hout]
  have hplain : ∀ x ∈ opq, isCTL x = false ∧ x ≠ '%' ∧ x ≠ '#' ∧ x ≠ '?' :=
    fun x hx => opaqueChar_safe x (hopq' x hx)
  have hqp : (if fq then (['?'] : List Char) else []) = [] ∨
      (if fq then (['?'] : List Char) else []) = ['?'] := by
    cases fq
    · exact Or.inl rfl
    · exact Or.inr rfl
  have hraw : ∀ x ∈ scheme ++ ':' :: (opq ++ (if fq then ['?'] else [])),
      isCTL x = false ∧ x ≠ '%' ∧ x ≠ '#' := by
    intro x hx
    rw [show scheme ++ ':' :: (opq ++ (if fq then ['?'] else [])) =
      (scheme ++ [':']) ++ (opq ++ (if fq then ['?'] else [])) from by simp] at hx
    rcases List.mem_append.1 hx with hx | hx
    · obtain ⟨h1, h2, h3, _⟩ := scheme_plain scheme hall x hx
      exact ⟨h1, h2, h3⟩
    · rcases List.mem_append.1 hx with hx | hx
      · obtain ⟨h1, h2, h3, _⟩ := hplain x hx
        exact ⟨h1, h2, h3⟩
      · rcases hqp with hq | hq <;> rw [hq] at hx
        · simp at hx
        · simp only [List.mem_singleton] at hx
          subst hx
          refine ⟨by decide, by decide, by decide⟩
  have hgs : getScheme (scheme ++ ':' :: (opq ++ (if fq then ['?'] else []))) =
      some (scheme, opq ++ (if fq then ['?'] else [])) := by
    rw [hsc]
    rw [getScheme_concat c t _ hα (hsc ▸ hall)]
    rw [← hsc, hlower]
  rw [parse_of_getScheme _ scheme (opq ++ (if fq then ['?'] else [])) ?hb ?hh hgs]
  case hb =>
    rw [List.any_eq_false]
    intro x hx
    obtain ⟨h1, h2, _⟩ := hraw x hx
    simp [h1, h2]
  case hh => exact fun x hx => (hraw x hx).2.2
  have hsq : splitQuery (opq ++ (if fq then ['?'] else [])) = (opq, [], fq) := by
    cases fq
    · rw [if_neg (by simp), List.append_nil]
      exact splitQuery_no_query opq (fun x hx => (hplain x hx).2.2.2)
    · rw [if_pos rfl]
      exact splitQuery_trailing opq (fun x hx => (hplain x hx).2.2.2)
  rw [hsq]
  unfold parseAfterScheme
  rw [if_pos ⟨hsne, hhead⟩]
  rw [if_pos hopq]

/-- Reparsing the rendered form of a normalized authority URL
(`[scheme:]//host/path`). -/
theorem parse_urlString_authority (scheme host p : List Char) (fq : Bool)
    (hs : SchemeOK scheme) (hhost : host.all hostChar = true)
    (hp : p.all pathChar = true) (hphead : p.head? = some '/')
    (hguard : scheme ≠ [] ∨ host ≠ []) :
    parse (urlString ⟨scheme, [], host, p, [], fq, false, []⟩) =
      some ⟨scheme, [], host, p, [], fq, false, []⟩ := by
  have hpne : p ≠ [] := by
    cases p
    · simp at hphead
    · simp
  obtain ⟨p', hp'⟩ : ∃ p', p = '/' :: p' := by
    cases p with
    | nil => simp at hphead
    | cons a t =>
      simp only [List.head?_cons, Option.some.injEq] at hphead
      exact ⟨t, by rw [hphead]⟩
  have hhost' : ∀ x ∈ host, hostChar x = true := by
    rw [List.all_eq_true] at hhost
    exact fun x hx => hhost x hx
  have hpath' : ∀ x ∈ p, pathChar x = true := by
    rw [List.all_eq_true] at hp
    exact fun x hx => hp x hx
  have hhostplain : ∀ x ∈ host, isCTL x = false ∧ x ≠ '%' ∧ x ≠ '#' ∧ x ≠ '?' := by
    intro x hx
    obtain ⟨h1, h2, h3, h4, _⟩ := hostChar_safe x (hhost' x hx)
    exact ⟨h1, h2, h3, h4⟩
  have hpathplain : ∀ x ∈ p, isCTL x = false ∧ x ≠ '%' ∧ x ≠ '#' ∧ x ≠ '?' :=
    fun x hx => pathChar_safe x (hpath' x hx)
  have hcoreplain : ∀ x ∈ '/' :: '/' :: (host ++ p),
      isCTL x = false ∧ x ≠ '%' ∧ x ≠ '#' ∧ x ≠ '?' := by
    intro x hx
    rcases List.mem_cons.1 hx with hx | hx
    · subst hx; refine ⟨by decide, by decide, by decide, by decide⟩
    rcases List.mem_cons.1 hx with hx | hx
    · subst hx; refine ⟨by decide, by decide, by decide, by decide⟩
    rcases List.mem_append.1 hx with hx | hx
    · exact hhostplain x hx
    · exact hpathplain x hx
  have hsq : splitQuery (('/' :: '/' :: (host ++ p)) ++ (if fq then ['?'] else [])) =
      ('/' :: '/' :: (host ++ p), [], fq) := by
    cases fq
    · rw [if_neg (by simp), List.append_nil]
      exact splitQuery_no_query _ (fun x hx => (hcoreplain x hx).2.2.2)
    · rw [if_pos rfl]
      exact splitQuery_trailing _ (fun x hx => (hcoreplain x hx).2.2.2)
  have hspan : spanUntil '/' (host ++ p) = (host, p) := by
    rw [hp']
    exact spanUntil_concat '/' host p'
      (fun x hx => (hostChar_safe x (hhost' x hx)).2.2.2.2)
  have hafter : parseAfterScheme scheme ('/' :: '/' :: (host ++ p)) [] fq [] =
      some ⟨scheme, [], host, p, [], fq, false, []⟩ := by
    unfold parseAfterScheme
    rw [if_neg (fun hc => hc.2 rfl)]
    rw [if_neg (fun hc => hc.2.1 rfl)]
    have htwo : (['/', '/'].isPrefixOf ('/' :: '/' :: (host ++ p))) = true := by
      rw [isPrefixOf_two_iff]
      exact ⟨host ++ p, rfl⟩
    have hleft : scheme ≠ [] ∨
        ¬ (['/', '/', '/'].isPrefixOf ('/' :: '/' :: (host ++ p)) = true) := by
      rcases hguard with hg | hg
      · exact Or.inl hg
      · right
        intro h3
        obtain ⟨t, ht⟩ := (isPrefixOf_three_iff _).1 h3
        injection ht with _ ht
        injection ht with _ ht
        cases host with
        | nil => exact absurd rfl hg
        | cons h0 hs0 =>
          rw [List.cons_append] at ht
          injection ht with h0eq _
          exact (hostChar_safe h0 (hhost' h0 (List.mem_cons_self h0 hs0))).2.2.2.2 h0eq
    rw [if_pos ⟨hleft, htwo⟩]
    rw [show ('/' :: '/' :: (host ++ p)).drop 2 = host ++ p from rfl, hspan]
    rw [if_pos (by rw [hhost, hp]; rfl)]
  by_cases hsne : scheme = []
  · subst hsne
    have hhne : host ≠ [] := by
      rcases hguard with hg | hg
      · exact absurd rfl hg
      · exact hg
    have hout : urlString ⟨[], [], host, p, [], fq, false, []⟩ =
        ('/' :: '/' :: (host ++ p)) ++ (if fq then ['?'] else []) := by
      cases fq <;> simp [urlString, hhne, hpne, hphead]
    rw [hout]
    have hraw := raw_checks ('/' :: '/' :: (host ++ p)) (if fq then ['?'] else [])
      hcoreplain
      (by cases fq
          · exact Or.inl rfl
          · exact Or.inr rfl)
    rw [parse_of_getScheme _ [] (('/' :: '/' :: (host ++ p)) ++ (if fq then ['?'] else []))
      hraw.1 hraw.2 (getScheme_head_slash _ (by rw [head?_append_left _ _ (by simp)]; rfl))]
    rw [hsq, hafter]
  · obtain ⟨c, t, hsc, hα, hall, hlower⟩ :
        ∃ c t, scheme = c :: t ∧ isAlphaCh c = true ∧
          (∀ x ∈ scheme, schemeChar x = true) ∧ scheme.map toLowerCh = scheme := by
      rcases hs with h | ⟨c, t, h1, h2, h3, h4⟩
      · exact absurd h hsne
      · exact ⟨c, t, h1, h2, h3, h4⟩
    have hout : urlString ⟨scheme, [], host, p, [], fq, false, []⟩ =
        scheme ++ ':' :: (('/' :: '/' :: (host ++ p)) ++ (if fq then ['?'] else [])) := by
      cases fq <;> simp [urlString, hsne, hpne, hphead]
    rw [hout]
    have hraw : ∀ x ∈ scheme ++ ':' :: (('/' :: '/' :: (host ++ p)) ++
        (if fq then ['?'] else [])), isCTL x = false ∧ x ≠ '%' ∧ x ≠ '#' := by
    -- the scheme, the colon, the authority core and the optional `?` are all plain
      intro x hx
      rw [show scheme ++ ':' :: (('/' :: '/' :: (host ++ p)) ++ (if fq then ['?'] else [])) =
        (scheme ++ [':']) ++ (('/' :: '/' :: (host ++ p)) ++ (if fq then ['?'] else []))
        from by simp] at hx
      rcases List.mem_append.1 hx with hx | hx
      · obtain ⟨h1, h2, h3, _⟩ := scheme_plain scheme hall x hx
        exact ⟨h1, h2, h3⟩
      · rcases List.mem_append.1 hx with hx | hx
        · obtain ⟨h1, h2, h3, _⟩ := hcoreplain x hx
          exact ⟨h1, h2, h3⟩
        · cases fq
          · rw [if_neg (by simp)] at hx
            simp at hx
          · rw [if_pos rfl] at hx
            simp only [List.mem_singleton] at hx
            subst hx
            refine ⟨by decide, by decide, by decide⟩
    have hgs : getScheme (scheme ++ ':' :: (('/' :: '/' :: (host ++ p)) ++
        (if fq then ['?'] else []))) =
        some (scheme, ('/' :: '/' :: (host ++ p)) ++ (if fq then ['?'] else [])) := by
      rw [hsc]
      rw [getScheme_concat c t _ hα (hsc ▸ hall)]
      rw [← hsc, hlower]
    rw [parse_of_getScheme _ scheme _ ?hb2 ?hh2 hgs]
    case hb2 =>
      rw [List.any_eq_false]
      intro x hx
      obtain ⟨h1, h2, _⟩ := hraw x hx
      simp [h1, h2]
    case hh2 => exact fun x hx => (hraw x hx).2.2
    rw [hsq, hafter]

/-- Reparsing the rendered form of a normalized omit-host URL
(`scheme:/path`, single slash). -/
theorem parse_urlString_omitHost (scheme p : List Char) (fq : Bool)
    (hs : SchemeOK scheme) (hsne : scheme ≠ [])
    (hp : p.all pathChar = true) (hphead : p.head? = some '/')
    (h2 : ['/', '/'].isPrefixOf p = false) :
    parse (urlString ⟨scheme, [], [], p, [], fq, true, []⟩) =
      some ⟨scheme, [], [], p, [], fq, true, []⟩ := by
  obtain ⟨c, t, hsc, hα, hall, hlower⟩ :
      ∃ c t, scheme = c :: t ∧ isAlphaCh c = true ∧
        (∀ x ∈ scheme, schemeChar x = true) ∧ scheme.map toLowerCh = scheme := by
    rcases hs with h | ⟨c, t, h1, h2, h3, h4⟩
    · exact absurd h hsne
    · exact ⟨c, t, h1, h2, h3, h4⟩
  have hpne : p ≠ [] := by
    cases p
    · simp at hphead
    · simp
  have hpath' : ∀ x ∈ p, pathChar x = true := by
    rw [List.all_eq_true] at hp
    exact fun x hx => hp x hx
  have hpathplain : ∀ x ∈ p, isCTL x = false ∧ x ≠ '%' ∧ x ≠ '#' ∧ x ≠ '?' :=
    fun x hx => pathChar_safe x (hpath' x hx)
  have hout : urlString ⟨scheme, [], [], p, [], fq, true, []⟩ =
      scheme ++ ':' :: (p ++ (if fq then ['?'] else [])) := by
    cases fq <;> simp [urlString, hsne, hphead]
  rw [hout]
  have hraw : ∀ x ∈ scheme ++ ':' :: (p ++ (if fq then ['?'] else [])),
      isCTL x = false ∧ x ≠ '%' ∧ x ≠ '#' := by
    intro x hx
    rw [show scheme ++ ':' :: (p ++ (if fq then ['?'] else [])) =
      (scheme ++ [':']) ++ (p ++ (if fq then ['?'] else [])) from by simp] at hx
    rcases List.mem_append.1 hx with hx | hx
    · obtain ⟨h1a, h2a, h3a, _⟩ := scheme_plain scheme hall x hx
      exact ⟨h1a, h2a, h3a⟩
    · rcases List.mem_append.1 hx with hx | hx
      · obtain ⟨h1a, h2a, h3a, _⟩ := hpathplain x hx
        exact ⟨h1a, h2a, h3a⟩
      · cases fq
        · rw [if_neg (by simp)] at hx
          simp at hx
        · rw [if_pos rfl] at hx
          simp only [List.mem_singleton] at hx
          subst hx
          refine ⟨by decide, by decide, by decide⟩
  have hgs : getScheme (scheme ++ ':' :: (p ++ (if fq then ['?'] else []))) =
      some (scheme, p ++ (if fq then ['?'] else [])) := by
    rw [hsc]
    rw [getScheme_concat c t _ hα (hsc ▸ hall)]
    rw [← hsc, hlower]
  rw [parse_of_getScheme _ scheme _ ?hb3 ?hh3 hgs]
  case hb3 =>
    rw [List.any_eq_false]
    intro x hx
    obtain ⟨h1a, h2a, _⟩ := hraw x hx
    simp [h1a, h2a]
  case hh3 => exact fun x hx => (hraw x hx).2.2
  have hsq : splitQuery (p ++ (if fq then ['?'] else [])) = (p, [], fq) := by
    cases fq
    · rw [if_neg (by simp), List.append_nil]
      exact splitQuery_no_query _ (fun x hx => (hpathplain x hx).2.2.2)
    · rw [if_pos rfl]
      exact splitQuery_trailing _ (fun x hx => (hpathplain x hx).2.2.2)
  rw [hsq]
  unfold parseAfterScheme
  rw [if_neg (fun hc => hc.2 hphead)]
  rw [if_neg (fun hc => hsne hc.1)]
  rw [if_neg (by
    intro hc
    rw [h2] at hc
    exact absurd hc.2 (by simp))]
  rw [if_pos ⟨hsne, hphead⟩]
  rw [if_pos hp]

/-- Reparsing the rendered form of a normalized scheme-less relative URL. -/
theorem parse_urlString_relative (p : List Char) (fq : Bool)
    (hp : p.all pathChar = true) (hpne : p ≠ [])
    (hshape : (p.head? = some '/' ∧ (['/', '/', '/'].isPrefixOf p = true ∨
        ['/', '/'].isPrefixOf p = false)) ∨
      (p.head? ≠ some '/' ∧ ':' ∉ firstSegment p)) :
    parse (urlString ⟨[], [], [], p, [], fq, false, []⟩) =
      some ⟨[], [], [], p, [], fq, false, []⟩ := by
  have hpath' : ∀ x ∈ p, pathChar x = true := by
    rw [List.all_eq_true] at hp
    exact fun x hx => hp x hx
  have hpathplain : ∀ x ∈ p, isCTL x = false ∧ x ≠ '%' ∧ x ≠ '#' ∧ x ≠ '?' :=
    fun x hx => pathChar_safe x (hpath' x hx)
  have hmem : ':' ∉ firstSegment p := by
    rcases hshape with ⟨hh, _⟩ | ⟨_, hcol⟩
    · obtain ⟨p', hp'⟩ : ∃ p', p = '/' :: p' := by
        cases p with
        | nil => exact absurd rfl hpne
        | cons a t =>
          simp only [List.head?_cons, Option.some.injEq] at hh
          exact ⟨t, by rw [hh]⟩
      rw [hp', firstSegment_head_slash]
      simp
    · exact hcol
  have hfs : ¬ ((firstSegment p).contains ':' = true) := by
    intro hc
    exact hmem (by simpa using hc)
  have hout : urlString ⟨[], [], [], p, [], fq, false, []⟩ =
      p ++ (if fq then ['?'] else []) := by
    cases fq <;> simp [urlString, hmem]
  rw [hout]
  have hraw := raw_checks p (if fq then ['?'] else []) hpathplain
    (by cases fq
        · exact Or.inl rfl
        · exact Or.inr rfl)
  have hgs : getScheme (p ++ (if fq then ['?'] else [])) =
      some ([], p ++ (if fq then ['?'] else [])) := by
    rcases hshape with ⟨hh, _⟩ | ⟨hh, hcol⟩
    · exact getScheme_head_slash _ (by rw [head?_append_left _ _ hpne]; exact hh)
    · apply getScheme_noScheme
      cases fq
      · rw [if_neg (by simp), List.append_nil]
        exact hcol
      · rw [if_pos rfl]
        exact firstSegment_colon_free_append p '?' (by decide) hcol
  rw [parse_of_getScheme _ [] _ hraw.1 hraw.2 hgs]
  have hsq : splitQuery (p ++ (if fq then ['?'] else [])) = (p, [], fq) := by
    cases fq
    · rw [if_neg (by simp), List.append_nil]
      exact splitQuery_no_query _ (fun x hx => (hpathplain x hx).2.2.2)
    · rw [if_pos rfl]
      exact splitQuery_trailing _ (fun x hx => (hpathplain x hx).2.2.2)
  rw [hsq]
  unfold parseAfterScheme
  rw [if_neg (fun hc => hc.1 rfl)]
  rw [if_neg (fun hc => hfs hc.2.2)]
  rw [if_neg (by
    intro hc
    rcases hshape with ⟨hh, h32⟩ | ⟨hh, _⟩
    · rcases h32 with h3 | hn2
      · rcases hc.1 with hcl | hcl
        · exact hcl rfl
        · exact hcl h3
      · rw [hn2] at hc
        exact absurd hc.2 (by simp)
    · exact hh (two_implies_head p hc.2))]
  rw [if_neg (fun hc => hc.1 rfl)]
  rw [if_pos hp]

/-! ### The round trip for normalized parse results -/

theorem normPath_nil : normPath [] = ['/'] := by decide

theorem spanUntil_snd_shape (c : Char) (l : List Char) :
    (spanUntil c l).2 = [] ∨ (spanUntil c l).2.head? = some c := by
  induction l with
  | nil => exact Or.inl rfl
  | cons a t ih =>
    by_cases ha : a = c
    · right
      unfold spanUntil
      rw [if_pos ha, ha]
      rfl
    · unfold spanUntil
      rw [if_neg ha]
      exact ih

theorem spanUntil_fst_nil (c : Char) (l : List Char)
    (h : (spanUntil c l).1 = []) : l = [] ∨ l.head? = some c := by
  cases l with
  | nil => exact Or.inl rfl
  | cons a t =>
    by_cases ha : a = c
    · exact Or.inr (by rw [ha]; rfl)
    · exfalso
      unfold spanUntil at h
      rw [if_neg ha] at h
      exact absurd h (by simp)

theorem normPath_head_preserved (p : List Char) (hne : p ≠ [])
    (hh : p.head? ≠ some '/') : (normPath p).head? = p.head? := by
  rcases normPath_cases p with ⟨hc, hv⟩ | ⟨hv, _, _⟩ | ⟨hv, hd, _⟩
  · rcases hc with hc | hc
    · exact absurd hc hne
    · subst hc
      exact absurd rfl hh
  · rw [hv]
  · rw [hv]
    exact head?_dropLast p hd

/-- The round trip: re-parsing the rendered form of the normalized struct
of any parse result (whose path does not end in a double slash) yields a
URL with the same normalized struct. -/
theorem parse_normStruct_roundtrip (s : List Char) (v : URL)
    (h : parse s = some v) (hdd : endsDoubleSlash v.path = false) :
    ∃ w, parse (urlString (normStruct v)) = some w ∧ normStruct w = normStruct v := by
  unfold parse at h
  split at h
  · exact absurd h (by simp)
  · split at h
    · exact absurd h (by simp)
    · rename_i scheme rest0 heq
      have hsOK : SchemeOK scheme := getScheme_schemeOK _ scheme rest0 heq
      generalize (splitQuery rest0).1 = rest at h
      generalize (splitQuery rest0).2.1 = rq at h
      generalize (splitQuery rest0).2.2 = fq at h
      generalize (splitFragment s).2 = frag at h
      unfold parseAfterScheme at h
      split at h
      · -- opaque branch
        rename_i hc1
        split at h
        · rename_i hopq
          rw [Option.some.injEq] at h
          subst h
          simp only [endsDoubleSlash] at hdd
          by_cases hone : rest = []
          · subst hone
            refine ⟨⟨scheme, [], [], ['/'], [], fq, false, []⟩, ?_, ?_⟩
            · have := parse_urlString_authority scheme [] ['/'] fq hsOK
                (by rfl) (by decide) (by rfl) (Or.inl hc1.1)
              simpa [normStruct, normPath_nil] using this
            · simp [normStruct, normPath_nil, normPath_root]
          · refine ⟨⟨scheme, rest, [], [], [], fq, false, []⟩, ?_, ?_⟩
            · have := parse_urlString_opaque scheme rest ['/'] fq hsOK hc1.1
                hopq hone hc1.2
              simpa [normStruct, normPath_nil] using this
            · simp [normStruct, normPath_nil]
        · exact absurd h (by simp)
      · split at h
        · exact absurd h (by simp)
        · split at h
          · -- authority branch
            rename_i hc1 hc2 hc3
            split at h
            · rename_i hchecks
              rw [Option.some.injEq] at h
              subst h
              rw [Bool.and_eq_true] at hchecks
              simp only at hdd
              have hsnd := spanUntil_snd_shape '/' (rest.drop 2)
              by_cases hdegen : scheme = [] ∧ (spanUntil '/' (rest.drop 2)).1 = []
              · -- the bare "//" input: no scheme, empty host
                obtain ⟨hs0, ha0⟩ := hdegen
                have hrest1 : (spanUntil '/' (rest.drop 2)).2 = [] := by
                  rcases spanUntil_fst_nil '/' (rest.drop 2) ha0 with hnil | hhead
                  · rw [hnil]; rfl
                  · exfalso
                    obtain ⟨t2, ht2⟩ := (isPrefixOf_two_iff rest).1 hc3.2
                    rcases hc3.1 with hcl | hcl
                    · exact hcl hs0
                    · apply hcl
                      rw [isPrefixOf_three_iff]
                      subst ht2
                      cases t2 with
                      | nil => simp at hhead
                      | cons a u =>
                        simp only [List.drop_succ_cons, List.drop_zero] at hhead
                        simp only [List.head?_cons, Option.some.injEq] at hhead
                        exact ⟨u, by rw [hhead]⟩
                refine ⟨⟨[], [], [], ['/'], [], fq, false, []⟩, ?_, ?_⟩
                · have := parse_urlString_relative ['/'] fq (by decide) (by simp)
                    (Or.inl ⟨rfl, Or.inr (by decide)⟩)
                  simpa [normStruct, hs0, ha0, hrest1, normPath_nil] using this
                · simp [normStruct, hs0, ha0, hrest1, normPath_nil, normPath_root]
              · have hguard : scheme ≠ [] ∨ (spanUntil '/' (rest.drop 2)).1 ≠ [] := by
                  by_cases hs0 : scheme = []
                  · right
                    intro ha0
                    exact hdegen ⟨hs0, ha0⟩
                  · exact Or.inl hs0
                have hphead : (normPath (spanUntil '/' (rest.drop 2)).2).head? = some '/' :=
                  normPath_head_slash _ hsnd
                refine ⟨⟨scheme, [], (spanUntil '/' (rest.drop 2)).1,
                  normPath (spanUntil '/' (rest.drop 2)).2, [], fq, false, []⟩, ?_, ?_⟩
                · have := parse_urlString_authority scheme
                    (spanUntil '/' (rest.drop 2)).1
                    (normPath (spanUntil '/' (rest.drop 2)).2) fq hsOK hchecks.1
                    (normPath_all _ hchecks.2) hphead hguard
                  simpa [normStruct] using this
                · simp [normStruct, normPath_idem _ hdd]
            · exact absurd h (by simp)
          · split at h
            · -- omit-host branch
              rename_i hc1 hc2 hc3 hc4
              split at h
              · rename_i hpath
                rw [Option.some.injEq] at h
                subst h
                simp only at hdd
                have hntwo : ['/', '/'].isPrefixOf rest = false := by
                  by_contra hcon
                  rw [Bool.not_eq_false] at hcon
                  exact hc3 ⟨Or.inl hc4.1, hcon⟩
                refine ⟨⟨scheme, [], [], normPath rest, [], fq, true, []⟩, ?_, ?_⟩
                · have := parse_urlString_omitHost scheme (normPath rest) fq hsOK hc4.1
                    (normPath_all _ hpath)
                    (normPath_head_slash _ (Or.inr hc4.2))
                    (normPath_not_two _ hntwo)
                  simpa [normStruct] using this
                · simp [normStruct, normPath_idem _ hdd]
              · exact absurd h (by simp)
            · -- relative branch
              rename_i hc1 hc2 hc3 hc4
              split at h
              · rename_i hpath
                rw [Option.some.injEq] at h
                subst h
                simp only at hdd
                have hs0 : scheme = [] := by
                  by_contra hs0
                  by_cases hh : rest.head? = some '/'
                  · exact hc4 ⟨hs0, hh⟩
                  · exact hc1 ⟨hs0, hh⟩
                subst hs0
                by_cases hh : rest.head? = some '/'
                · -- a slash-started relative path
                  have h32 : ['/', '/', '/'].isPrefixOf rest = true ∨
                      ['/', '/'].isPrefixOf rest = false := by
                    by_cases h2 : ['/', '/'].isPrefixOf rest = true
                    · left
                      by_contra h3
                      rw [Bool.not_eq_true] at h3
                      exact hc3 ⟨Or.inr (by rw [h3]; simp), h2⟩
                    · right
                      rw [Bool.not_eq_true] at h2
                      exact h2
                  refine ⟨⟨[], [], [], normPath rest, [], fq, false, []⟩, ?_, ?_⟩
                  · have := parse_urlString_relative (normPath rest) fq
                      (normPath_all _ hpath) (normPath_ne_nil rest)
                      (Or.inl ⟨normPath_head_slash _ (Or.inr hh), by
                        rcases h32 with h3 | h2
                        · exact Or.inl (normPath_three rest h3 hdd)
                        · exact Or.inr (normPath_not_two rest h2)⟩)
                    simpa [normStruct] using this
                  · simp [normStruct, normPath_idem _ hdd]
                · -- not slash-started: first segment is colon-free
                  have hcol : ':' ∉ firstSegment rest := by
                    intro hmem
                    exact hc2 ⟨rfl, hh, by simpa using hmem⟩
                  by_cases hrnil : rest = []
                  · subst hrnil
                    refine ⟨⟨[], [], [], ['/'], [], fq, false, []⟩, ?_, ?_⟩
                    · have := parse_urlString_relative ['/'] fq (by decide) (by simp)
                        (Or.inl ⟨rfl, Or.inr (by decide)⟩)
                      simpa [normStruct, normPath_nil] using this
                    · simp [normStruct, normPath_nil, normPath_root]
                  · refine ⟨⟨[], [], [], normPath rest, [], fq, false, []⟩, ?_, ?_⟩
                    · have := parse_urlString_relative (normPath rest) fq
                        (normPath_all _ hpath) (normPath_ne_nil rest)
                        (Or.inr ⟨by rw [normPath_head_preserved rest hrnil hh]; exact hh,
                          normPath_colon_free rest hcol⟩)
                      simpa [normStruct] using this
                    · simp [normStruct, normPath_idem _ hdd]
              · exact absurd h (by simp)

end GoNetURL

/-! ## Claim C9 -/

/-- Claim C9 counterexample: `NormalizeURL` is *not* idempotent.
`strings.TrimSuffix(path, "/")` strips only one trailing slash per call, so
`NormalizeURL "http://example.com/a//" = "http://example.com/a/"` while a
second application yields `"http://example.com/a"`. -/
theorem NormalizeURL_not_idempotent_counterexample :
    NormalizeURL (NormalizeURL "http://example.com/a//") ≠
      NormalizeURL "http://example.com/a//" := by decide

/-- Claim C9 as amended: `NormalizeURL` is idempotent on every input whose
parsed path does not end in two consecutive slashes (inputs that fail to
parse satisfy the hypothesis vacuously and are returned unchanged):
applying it twice gives the same string as applying it once. -/
theorem NormalizeURL_idempotent_away_from_double_slash (u : String)
    (h : ∀ v, GoNetURL.parse u.data = some v →
      GoNetURL.endsDoubleSlash v.path = false) :
    NormalizeURL (NormalizeURL u) = NormalizeURL u := by
  cases hp : GoNetURL.parse u.data with
  | none =>
    have hNu : NormalizeURL u = u := by
      unfold NormalizeURL
      rw [hp]
    rw [hNu, hNu]
  | some v =>
    have hdd := h v hp
    obtain ⟨w, hw1, hw2⟩ := GoNetURL.parse_normStruct_roundtrip u.data v hp hdd
    have h1 : NormalizeURL u = String.mk (GoNetURL.urlString (normStruct v)) := by
      unfold NormalizeURL
      rw [hp]
    rw [h1]
    have h2 : (String.mk (GoNetURL.urlString (normStruct v))).data
        = GoNetURL.urlString (normStruct v) := rfl
    unfold NormalizeURL
    rw [h2, hw1]
    show String.mk (GoNetURL.urlString (normStruct w))
        = String.mk (GoNetURL.urlString (normStruct v))
    rw [hw2]

/-- Witness for claim C9: `"http://a.com/p/"` parses with path `"/p/"`,
which does not end in a double slash, so a second `NormalizeURL` changes
nothing. -/
theorem NormalizeURL_idempotent_witness :
    NormalizeURL (NormalizeURL "http://a.com/p/") =
      NormalizeURL "http://a.com/p/" :=
  NormalizeURL_idempotent_away_from_double_slash "http://a.com/p/"
    (fun v hv => by
      have hpar : GoNetURL.parse "http://a.com/p/".data =
          some ⟨"http".data, [], "a.com".data, "/p/".data, [], false, false, []⟩ := by
        decide
      rw [hpar, Option.some.injEq] at hv
      subst hv
      decide)

end Framely
